import Mathlib

/-!
# Physical memory and the difftest store-commit queue (`src/memory/paddr.c`)

A shallow embedding of `paddr.c`: the guest/host address translation, the
`paddr_read` / `paddr_write` dispatch, the store-commit queue
(`store_commit_queue_push`, `store_commit_queue_pop`) and
`check_store_commit`.

Conventions.
* `uint64_t` and `paddr_t` values are natural numbers; a reduction modulo
  `2 ^ 64` (or `2 ^ 32` for `paddr_t`) is written wherever the C arithmetic
  can wrap.
* `int len` is an `Int`.
* The globals `store_commit_queue`, `head`, `tail` and the function-local
  `static int overflow` form the record `SCQ`.
* A pointer into `store_commit_queue` is the index of the slot it points to.
* `printf` output is a list of `Msg`; a failed `assert(0)` is the flag
  `aborted` (the process stops there, with the stores made so far).
* Constants, types and functions that come from headers outside `paddr.c`
  are fields of `Config` / `Host`, or are modelled from the specification and
  marked as such.
-/

namespace Paddr

/-! ## Data model -/

/-- The struct `store_commit_t`, as used by `paddr.c`: the fields `addr`, `data`
(both `uint64_t`) and `valid`. -/
structure store_commit_t where
  addr : Nat
  data : Nat
  valid : Bool
deriving DecidableEq, Repr, Inhabited

/-- The store-commit queue globals: the array `store_commit_queue`, the cursors
`head` and `tail`, and the `static int overflow` of `store_commit_queue_push`. -/
structure SCQ where
  store_commit_queue : List store_commit_t
  head : Nat
  tail : Nat
  overflow : Bool
deriving DecidableEq, Repr

/-- Lines written to standard output by the functions of `paddr.c`. -/
inductive Msg where
  /-- The text "difftest store queue overflow, difftest store commit disabled". -/
  | queue_overflow
  /-- The text "invalid mem read from paddr ..." -/
  | invalid_read (addr : Nat)
  /-- The text "invalid mem write to paddr ..." -/
  | invalid_write (addr : Nat)
  /-- The text "NEMU does not commit any store instruction." -/
  | no_store_committed
  /-- The text "ref different at pc = ..., paddr = ..., data = ..." -/
  | ref_different (pc paddr data : Nat)
deriving DecidableEq, Repr

/-- The zero-initialised slot of a C global array. -/
def zero_slot : store_commit_t := { addr := 0, data := 0, valid := false }

/-- Read of `store_commit_queue[i]`. -/
def slot (s : SCQ) (i : Nat) : store_commit_t :=
  s.store_commit_queue.getD i zero_slot

/-- The queue state after program load and `init_mem`: `head = tail = 0`,
`overflow = 0`, and the loop of `init_mem` has cleared `valid` in each of the
`STORE_QUEUE_SIZE` slots of the zero-initialised array. -/
def init_queue (STORE_QUEUE_SIZE : Nat) : SCQ :=
  { store_commit_queue :=
      (List.replicate STORE_QUEUE_SIZE zero_slot).map (fun e => { e with valid := false })
    head := 0
    tail := 0
    overflow := false }

/-! ## The store-commit queue -/

/-- Outcome of `store_commit_queue_push`: the globals afterwards, what was
printed, and whether `assert(0)` stopped the process. -/
structure PushResult where
  st : SCQ
  out : List Msg
  aborted : Bool
deriving DecidableEq, Repr

/-- The function `store_commit_queue_push(addr, data, len)`, statement by statement. -/
def store_commit_queue_push (STORE_QUEUE_SIZE : Nat) (s : SCQ) (addr data : Nat)
    (len : Int) : PushResult :=
  if s.overflow then
    { st := s, out := [], aborted := false }
  else
    -- store_commit_t *commit = store_commit_queue + tail;
    let commit := s.tail
    -- if (commit->valid) { overflow = 1; printf(...); };
    let full := (slot s commit).valid
    let overflow := if full then true else s.overflow
    let out := if full then [Msg.queue_overflow] else []
    let offset := addr % 4
    -- commit->addr = addr; commit->valid = 1; commit->data = data;
    let store (d : Nat) : List store_commit_t :=
      s.store_commit_queue.set commit { addr := addr, data := d, valid := true }
    -- tail = (tail + 1) % STORE_QUEUE_SIZE;
    let finish (d : Nat) : PushResult :=
      { st := { store_commit_queue := store d
                head := s.head
                tail := (s.tail + 1) % 2 ^ 64 % STORE_QUEUE_SIZE
                overflow := overflow }
        out := out
        aborted := false }
    if len = 1 then
      finish (((data &&& 0xff) <<< (offset <<< 3)) % 2 ^ 64)
    else if len = 2 then
      finish (((data &&& 0xffff) <<< (offset <<< 3)) % 2 ^ 64)
    else if len = 4 then
      finish data
    else
      -- default: assert(0);
      { st := { store_commit_queue := store data
                head := s.head
                tail := s.tail
                overflow := overflow }
        out := out
        aborted := true }

/-- The function `store_commit_queue_pop()`: the returned pointer (`none` for `NULL`,
`some i` for `store_commit_queue + i`) and the globals afterwards. -/
def store_commit_queue_pop (STORE_QUEUE_SIZE : Nat) (s : SCQ) : Option Nat × SCQ :=
  let result := s.head
  if !(slot s result).valid then
    (none, s)
  else
    (some result,
      { store_commit_queue :=
          s.store_commit_queue.set result { (slot s result) with valid := false }
        head := (s.head + 1) % 2 ^ 64 % STORE_QUEUE_SIZE
        tail := s.tail
        overflow := s.overflow })

/-- Outcome of `check_store_commit`: the returned `int`, the globals afterwards
and what was printed. -/
structure CheckResult where
  result : Int
  st : SCQ
  out : List Msg
deriving DecidableEq, Repr

/-- The function `check_store_commit(addr, data)`; `idle_pc` is the value of
`cpu.idle_pc`, which is only printed. -/
def check_store_commit (STORE_QUEUE_SIZE : Nat) (idle_pc : Nat) (s : SCQ)
    (addr data : Nat) : CheckResult :=
  match store_commit_queue_pop STORE_QUEUE_SIZE s with
  | (none, s1) =>
      { result := 1, st := s1, out := [Msg.no_store_committed] }
  | (some commit, s1) =>
      if addr ≠ (slot s1 commit).addr ∨ data ≠ (slot s1 commit).data then
        { result := 1, st := s1
          out := [Msg.ref_different idle_pc (slot s1 commit).addr (slot s1 commit).data] }
      else
        { result := 0, st := s1, out := [] }

/-- The width normalisation that `store_commit_queue_push` applies to `data`
for the widths it accepts, written without the `uint64_t` reduction (which
never takes effect, see `norm_data_eq`). -/
def norm_data (addr data : Nat) (len : Int) : Nat :=
  if len = 1 then (data &&& 0xff) <<< (8 * (addr % 4))
  else if len = 2 then (data &&& 0xffff) <<< (8 * (addr % 4))
  else data

/-- Well-formed queue globals: the array has `STORE_QUEUE_SIZE` slots, the size
is positive and an array of that many slots is addressable, and both cursors
index into it. -/
def WF (STORE_QUEUE_SIZE : Nat) (s : SCQ) : Prop :=
  0 < STORE_QUEUE_SIZE ∧ STORE_QUEUE_SIZE ≤ 2 ^ 64 ∧
  s.store_commit_queue.length = STORE_QUEUE_SIZE ∧
  s.head < STORE_QUEUE_SIZE ∧ s.tail < STORE_QUEUE_SIZE

instance (STORE_QUEUE_SIZE : Nat) (s : SCQ) : Decidable (WF STORE_QUEUE_SIZE s) := by
  unfold WF
  infer_instance

/-! ## Sequences of queue operations -/

/-- One call made by a client of the queue. -/
inductive QueueOp where
  | push (addr data : Nat) (len : Int)
  | pop
deriving DecidableEq, Repr

/-- Runs a sequence of calls from the state `s`. Returns the final globals and,
in call order, the `(addr, data)` read through the pointer returned by each
`store_commit_queue_pop` that did not return `NULL`. A push stopped by
`assert(0)` ends the run. -/
def run_ops (STORE_QUEUE_SIZE : Nat) : SCQ → List QueueOp → SCQ × List (Nat × Nat)
  | s, [] => (s, [])
  | s, QueueOp.push addr data len :: rest =>
      let r := store_commit_queue_push STORE_QUEUE_SIZE s addr data len
      if r.aborted then (r.st, []) else run_ops STORE_QUEUE_SIZE r.st rest
  | s, QueueOp.pop :: rest =>
      match store_commit_queue_pop STORE_QUEUE_SIZE s with
      | (none, s1) => run_ops STORE_QUEUE_SIZE s1 rest
      | (some p, s1) =>
          let r := run_ops STORE_QUEUE_SIZE s1 rest
          (r.1, ((slot s1 p).addr, (slot s1 p).data) :: r.2)

/-- The `(addr, normalised data)` pairs of the pushes of a call sequence, in
call order. -/
def pushed : List QueueOp → List (Nat × Nat)
  | [] => []
  | QueueOp.push addr data len :: rest => (addr, norm_data addr data len) :: pushed rest
  | QueueOp.pop :: rest => pushed rest

/-- Every push of the sequence has one of the widths 1, 2, 4. -/
def widths_ok : List QueueOp → Prop
  | [] => True
  | QueueOp.push _ _ len :: rest => (len = 1 ∨ len = 2 ∨ len = 4) ∧ widths_ok rest
  | QueueOp.pop :: rest => widths_ok rest

/-- The call sequence that pushes the given `(addr, data, len)` triples in order. -/
def push_ops (es : List (Nat × Nat × Int)) : List QueueOp :=
  es.map (fun e => QueueOp.push e.1 e.2.1 e.2.2)

/-- The call sequence of `n` pops. -/
def pop_ops (n : Nat) : List QueueOp :=
  List.replicate n QueueOp.pop

/-! ## Address translation and the access dispatcher -/

/-- Build configuration: the constants `CONFIG_MBASE`, `CONFIG_MSIZE` and
`STORE_QUEUE_SIZE`, the switches `CONFIG_SHARE` and
`CONFIG_DIFFTEST_STORE_COMMIT`, and `pmem`, the host address of the backing
region (the static array, or the result of `mmap` in `init_mem`). -/
structure Config where
  CONFIG_MBASE : Nat
  CONFIG_MSIZE : Nat
  STORE_QUEUE_SIZE : Nat
  CONFIG_SHARE : Bool
  CONFIG_DIFFTEST_STORE_COMMIT : Bool
  pmem : Nat
deriving DecidableEq, Repr

/-- The macro `HOST_PMEM_OFFSET`, `(uint8_t *)(pmem - CONFIG_MBASE)`, as a 64-bit
host address. -/
def HOST_PMEM_OFFSET (c : Config) : Nat :=
  (((c.pmem : Int) - (c.CONFIG_MBASE : Int)) % 2 ^ 64).toNat

/-- The function `guest_to_host(paddr)`: `paddr + HOST_PMEM_OFFSET` on 64-bit
host addresses. -/
def guest_to_host (c : Config) (paddr : Nat) : Nat :=
  (paddr + HOST_PMEM_OFFSET c) % 2 ^ 64

/-- The function `host_to_guest(haddr)`: the pointer difference
`haddr - HOST_PMEM_OFFSET` converted to the 32-bit `paddr_t`. -/
def host_to_guest (c : Config) (haddr : Nat) : Nat :=
  ((((haddr : Int) - (HOST_PMEM_OFFSET c : Int)) % 2 ^ 64) % 2 ^ 32).toNat

/-- Modelled from the spec: `in_pmem` is declared in `memory/paddr.h`, which is
not among the sources. The range predicate is the closed-open interval test
of `addr` against `[CONFIG_MBASE, CONFIG_MBASE + CONFIG_MSIZE)`. -/
def in_pmem (c : Config) (addr : Nat) : Bool :=
  decide (c.CONFIG_MBASE ≤ addr ∧ addr < c.CONFIG_MBASE + c.CONFIG_MSIZE)

/-- The functions `paddr.c` calls but does not define: `host_read` / `host_write`
(`memory/host.h`) on a host memory of type `M`, and `mmio_read` / `mmio_write`
(`device/mmio.h`) on a device state of type `D`. -/
structure Host (M D : Type) where
  host_read : M → Nat → Int → Nat
  host_write : M → Nat → Int → Nat → M
  mmio_read : D → Nat → Int → Nat × D
  mmio_write : D → Nat → Int → Nat → D

/-- A call into the MMIO subsystem. -/
inductive MmioCall where
  | read (addr : Nat) (len : Int)
  | write (addr : Nat) (len : Int) (data : Nat)
deriving DecidableEq, Repr

/-- The state the dispatcher acts on: host memory, device state, the queue
globals, and the record of what has been printed, which MMIO calls were made
and whether an assertion stopped the process. -/
structure Machine (M D : Type) where
  mem : M
  dev : D
  scq : SCQ
  out : List Msg
  mmio : List MmioCall
  aborted : Bool

/-- The function `pmem_read(addr, len)`. -/
def pmem_read {M D : Type} (c : Config) (h : Host M D) (m : Machine M D)
    (addr : Nat) (len : Int) : Nat :=
  h.host_read m.mem (guest_to_host c addr) len

/-- The function `pmem_write(addr, len, data)`: with `CONFIG_DIFFTEST_STORE_COMMIT`
the store is pushed first; `host_write` follows unless the push was stopped by
its assertion. -/
def pmem_write {M D : Type} (c : Config) (h : Host M D) (m : Machine M D)
    (addr : Nat) (len : Int) (data : Nat) : Machine M D :=
  if c.CONFIG_DIFFTEST_STORE_COMMIT then
    let r := store_commit_queue_push c.STORE_QUEUE_SIZE m.scq addr data len
    if r.aborted then
      { m with scq := r.st, out := m.out ++ r.out, aborted := true }
    else
      { m with scq := r.st, out := m.out ++ r.out,
               mem := h.host_write m.mem (guest_to_host c addr) len data }
  else
    { m with mem := h.host_write m.mem (guest_to_host c addr) len data }

/-- The function `paddr_read(addr, len)`: the returned word and the machine
afterwards. -/
def paddr_read {M D : Type} (c : Config) (h : Host M D) (m : Machine M D)
    (addr : Nat) (len : Int) : Nat × Machine M D :=
  if !c.CONFIG_SHARE then
    if in_pmem c addr then (pmem_read c h m addr len, m)
    else
      let r := h.mmio_read m.dev addr len
      (r.1, { m with dev := r.2, mmio := m.mmio ++ [MmioCall.read addr len] })
  else
    if in_pmem c addr then (pmem_read c h m addr len, m)
    else (0, { m with out := m.out ++ [Msg.invalid_read addr] })

/-- The function `paddr_write(addr, len, data)`. -/
def paddr_write {M D : Type} (c : Config) (h : Host M D) (m : Machine M D)
    (addr : Nat) (len : Int) (data : Nat) : Machine M D :=
  if !c.CONFIG_SHARE then
    if in_pmem c addr then pmem_write c h m addr len data
    else
      { m with dev := h.mmio_write m.dev addr len data,
               mmio := m.mmio ++ [MmioCall.write addr len data] }
  else
    if in_pmem c addr then pmem_write c h m addr len data
    else { m with out := m.out ++ [Msg.invalid_write addr] }

/-- The queue `s` holds exactly the entries `pend`, oldest first: it is
well-formed with the latch clear, the slots `head, head + 1, ...` (indices
modulo `STORE_QUEUE_SIZE`) are valid and carry the entries of `pend` in order,
`tail` follows the last of them, and every other slot is not valid. -/
def Holds (STORE_QUEUE_SIZE : Nat) (s : SCQ) (pend : List (Nat × Nat)) : Prop :=
  WF STORE_QUEUE_SIZE s ∧ s.overflow = false ∧ pend.length ≤ STORE_QUEUE_SIZE ∧
  s.tail = (s.head + pend.length) % STORE_QUEUE_SIZE ∧
  (∀ i a d, pend[i]? = some (a, d) →
    slot s ((s.head + i) % STORE_QUEUE_SIZE) = { addr := a, data := d, valid := true }) ∧
  (∀ j, j < STORE_QUEUE_SIZE →
    (∀ i, i < pend.length → j ≠ (s.head + i) % STORE_QUEUE_SIZE) →
    (slot s j).valid = false)

/-! ## A concrete host for evaluation -/

/-- A host on which the dispatcher can be evaluated: memory is the list of
`host_write` calls performed so far, a load returns the data of the latest
store to the same host address (0 if there is none), and the device answers
every read with 0 and counts the calls it receives. -/
def trace_host : Host (List (Nat × Int × Nat)) Nat where
  host_read := fun mem haddr _ =>
    match mem.reverse.find? (fun w => w.1 == haddr) with
    | some w => w.2.2
    | none => 0
  host_write := fun mem haddr len data => mem ++ [(haddr, len, data)]
  mmio_read := fun dev _ _ => (0, dev + 1)
  mmio_write := fun dev _ _ _ => dev + 1

/-- A configuration for evaluation: 128 MiB of guest memory at `0x1c000000`,
sixteen queue slots, the backing region at host address `0x7f0000000000`. -/
def example_config (share difftest : Bool) : Config :=
  { CONFIG_MBASE := 0x1c000000
    CONFIG_MSIZE := 0x8000000
    STORE_QUEUE_SIZE := 16
    CONFIG_SHARE := share
    CONFIG_DIFFTEST_STORE_COMMIT := difftest
    pmem := 0x7f0000000000 }

/-- The machine after `init_mem` on `trace_host`. -/
def example_machine : Machine (List (Nat × Int × Nat)) Nat :=
  { mem := [], dev := 0, scq := init_queue 16, out := [], mmio := [], aborted := false }

/-! ## Calls on the queue, checks included -/

/-- One call made by a client of the queue or of the checker; `check` carries
the value of `cpu.idle_pc` at the time of the call. -/
inductive QueueCall where
  | push (addr data : Nat) (len : Int)
  | pop
  | check (idle_pc addr data : Nat)
deriving DecidableEq, Repr

/-- Runs a sequence of calls from the state `s`. Returns the final globals, the
number of `store_commit_queue_push` calls made, and the number of pops that
returned an entry (those made by `check_store_commit` included). A push
stopped by `assert(0)` ends the run. -/
def run_calls (STORE_QUEUE_SIZE : Nat) : SCQ → List QueueCall → SCQ × Nat × Nat
  | s, [] => (s, 0, 0)
  | s, QueueCall.push addr data len :: rest =>
      let r := store_commit_queue_push STORE_QUEUE_SIZE s addr data len
      if r.aborted then (r.st, 1, 0)
      else
        let t := run_calls STORE_QUEUE_SIZE r.st rest
        (t.1, t.2.1 + 1, t.2.2)
  | s, QueueCall.pop :: rest =>
      match store_commit_queue_pop STORE_QUEUE_SIZE s with
      | (none, s1) => run_calls STORE_QUEUE_SIZE s1 rest
      | (some _, s1) =>
          let t := run_calls STORE_QUEUE_SIZE s1 rest
          (t.1, t.2.1, t.2.2 + 1)
  | s, QueueCall.check idle_pc addr data :: rest =>
      let r := check_store_commit STORE_QUEUE_SIZE idle_pc s addr data
      let t := run_calls STORE_QUEUE_SIZE r.st rest
      (t.1, t.2.1,
        t.2.2 + (if (store_commit_queue_pop STORE_QUEUE_SIZE s).1.isSome then 1 else 0))

/-- Every push of the call sequence has one of the widths 1, 2, 4. -/
def calls_widths_ok : List QueueCall → Prop
  | [] => True
  | QueueCall.push _ _ len :: rest => (len = 1 ∨ len = 2 ∨ len = 4) ∧ calls_widths_ok rest
  | QueueCall.pop :: rest => calls_widths_ok rest
  | QueueCall.check _ _ _ :: rest => calls_widths_ok rest

/-- The indices of the valid slots of the array, in increasing order. -/
def valid_slots (STORE_QUEUE_SIZE : Nat) (s : SCQ) : List Nat :=
  (List.range STORE_QUEUE_SIZE).filter (fun j => (slot s j).valid)

/-- A call of `check_store_commit` on a machine: it acts on the queue globals and
on standard output only. -/
def machine_check {M D : Type} (c : Config) (idle_pc : Nat) (m : Machine M D)
    (addr data : Nat) : Int × Machine M D :=
  let r := check_store_commit c.STORE_QUEUE_SIZE idle_pc m.scq addr data
  (r.result, { m with scq := r.st, out := m.out ++ r.out })

/-! ## Bytes of a stored value and bytes of an access -/

/-- Byte `k` (from the least significant) of the value `v`. -/
def byte_at (v k : Nat) : Nat :=
  v / 2 ^ (8 * k) % 256

/-- Modelled from the spec: `host_read` and `host_write` are defined in
`memory/host.h`, which is not among the sources. A width-correct load or store
of `len` bytes at the host address `haddr` accesses the host addresses
`haddr, ..., haddr + len - 1`. -/
def host_access_bytes (haddr len : Nat) : List Nat :=
  (List.range len).map (fun i => haddr + i)

/-- A host that makes the accesses of the dispatcher observable. Its memory is
the list of host addresses of the bytes stored to so far: `host_write` appends
the bytes of its access. `host_read` answers with the successor of the host
address it is called at, so a result of 0 means that no load was made; the
device answers every read with 0. -/
def access_probe : Host (List Nat) Unit where
  host_read := fun _ haddr _ => haddr + 1
  host_write := fun mem haddr len _ => mem ++ host_access_bytes haddr len.toNat
  mmio_read := fun dev _ _ => (0, dev)
  mmio_write := fun dev _ _ _ => dev

/-- A machine on `access_probe` with the queue globals `scq` and no byte stored
to yet. -/
def probe_machine (scq : SCQ) : Machine (List Nat) Unit :=
  { mem := [], dev := (), scq := scq, out := [], mmio := [], aborted := false }

/-- The host addresses of the bytes that `paddr_read addr len` loads, obtained by
running `paddr_read` on `access_probe`: the bytes of a `len`-byte access at the
host address of the `host_read` call, none if no such call was made. -/
def paddr_read_bytes (c : Config) (scq : SCQ) (addr : Nat) (len : Int) : List Nat :=
  match (paddr_read c access_probe (probe_machine scq) addr len).1 with
  | 0 => []
  | haddr + 1 => host_access_bytes haddr len.toNat

/-- The host addresses of the bytes that `paddr_write addr len data` stores to,
obtained by running `paddr_write` on `access_probe` from the queue globals
`scq`: the memory of the probe afterwards. -/
def paddr_write_bytes (c : Config) (scq : SCQ) (addr : Nat) (len : Int) (data : Nat) :
    List Nat :=
  (paddr_write c access_probe (probe_machine scq) addr len data).mem

/-! ## Auxiliary facts -/

theorem getD_set_self {α : Type} (l : List α) (i : Nat) (e d : α) (h : i < l.length) :
    (l.set i e).getD i d = e := by
  simp [List.getD_eq_getElem?_getD, List.getElem?_set, h]

theorem getD_set_ne {α : Type} (l : List α) (i j : Nat) (e d : α) (h : j ≠ i) :
    (l.set i e).getD j d = l.getD j d := by
  simp [List.getD_eq_getElem?_getD, List.getElem?_set, Ne.symm h]

/-- A byte or half-word shifted to its lane position fits in 40 bits. -/
theorem shifted_lt (x m o : Nat) (hm : m ≤ 0xffff) (ho : o < 4) :
    (x &&& m) <<< (o <<< 3) < 2 ^ 64 := by
  have h1 : x &&& m ≤ 0xffff := le_trans Nat.and_le_right hm
  have h2 : (2 : Nat) ^ (o <<< 3) ≤ 2 ^ 24 := by
    apply Nat.pow_le_pow_right (by norm_num)
    rw [Nat.shiftLeft_eq]; omega
  rw [Nat.shiftLeft_eq]
  calc (x &&& m) * 2 ^ (o <<< 3) ≤ 0xffff * 2 ^ 24 := Nat.mul_le_mul h1 h2
    _ < 2 ^ 64 := by norm_num

/-- The `uint64_t` reduction in the sub-word cases of the push never takes
effect. -/
theorem shifted_mod (x m a : Nat) (hm : m ≤ 0xffff) :
    ((x &&& m) <<< ((a % 4) <<< 3)) % 2 ^ 64 = (x &&& m) <<< (8 * (a % 4)) := by
  rw [Nat.mod_eq_of_lt (shifted_lt x m (a % 4) hm (Nat.mod_lt _ (by norm_num)))]
  congr 1
  rw [Nat.shiftLeft_eq]; omega

theorem tail_step (N t : Nat) (hN : N ≤ 2 ^ 64) (ht : t < N) :
    (t + 1) % 2 ^ 64 % N = (t + 1) % N := by
  rcases Nat.lt_or_ge (t + 1) (2 ^ 64) with h | h
  · rw [Nat.mod_eq_of_lt h]
  · have h1 : t + 1 = 2 ^ 64 := by omega
    have h2 : N = 2 ^ 64 := by omega
    rw [h1, h2, Nat.mod_mod]

/-- What a push that is neither latched nor refused for its width produces. -/
theorem push_eq (N : Nat) (s : SCQ) (addr data : Nat) (len : Int)
    (hov : s.overflow = false) (hlen : len = 1 ∨ len = 2 ∨ len = 4) :
    store_commit_queue_push N s addr data len =
      { st := { store_commit_queue :=
                  s.store_commit_queue.set s.tail
                    { addr := addr, data := norm_data addr data len, valid := true }
                head := s.head
                tail := (s.tail + 1) % 2 ^ 64 % N
                overflow := (slot s s.tail).valid }
        out := if (slot s s.tail).valid then [Msg.queue_overflow] else []
        aborted := false } := by
  have e1 := shifted_mod data 0xff addr (by norm_num)
  have e2 := shifted_mod data 0xffff addr (by norm_num)
  norm_num at e1 e2
  rcases hlen with h | h | h <;> subst h <;>
    simp [store_commit_queue_push, norm_data, hov, e1, e2]

theorem slot_set_self (q : List store_commit_t) (h t i : Nat) (o : Bool) (e : store_commit_t)
    (hi : i < q.length) :
    slot { store_commit_queue := q.set i e, head := h, tail := t, overflow := o } i = e := by
  simp [slot, getD_set_self, hi]

theorem slot_set_ne (q : List store_commit_t) (h t i j : Nat) (o : Bool) (e : store_commit_t)
    (hj : j ≠ i) :
    slot { store_commit_queue := q.set i e, head := h, tail := t, overflow := o } j =
      q.getD j zero_slot := by
  unfold slot
  exact getD_set_ne q i j e zero_slot hj

/-- A slot read as valid lies inside the array. -/
theorem valid_lt_length (s : SCQ) (i : Nat) (h : (slot s i).valid = true) :
    i < s.store_commit_queue.length := by
  by_contra hc
  have : s.store_commit_queue.getD i zero_slot = zero_slot := by
    simp [List.getD_eq_getElem?_getD, List.getElem?_eq_none (Nat.le_of_not_lt hc)]
  unfold slot at h
  rw [this] at h
  simp [zero_slot] at h

/-- What a pop of a non-empty queue produces. -/
theorem pop_eq (N : Nat) (s : SCQ) (hv : (slot s s.head).valid = true) :
    store_commit_queue_pop N s =
      (some s.head,
        { store_commit_queue :=
            s.store_commit_queue.set s.head { (slot s s.head) with valid := false }
          head := (s.head + 1) % 2 ^ 64 % N
          tail := s.tail
          overflow := s.overflow }) := by
  simp [store_commit_queue_pop, hv]

/-- A push on a latched queue returns at once. -/
theorem push_latched (N : Nat) (s : SCQ) (addr data : Nat) (len : Int)
    (h : s.overflow = true) :
    store_commit_queue_push N s addr data len = { st := s, out := [], aborted := false } := by
  simp [store_commit_queue_push, h]

/-- A pop of an empty queue returns `NULL` and changes nothing. -/
theorem pop_empty (N : Nat) (s : SCQ) (hv : (slot s s.head).valid = false) :
    store_commit_queue_pop N s = (none, s) := by
  simp [store_commit_queue_pop, hv]

/-! ## The queue as a list of pending entries -/

theorem mod_add_inj (N h i j : Nat) (hi : i < N) (hj : j < N)
    (e : (h + i) % N = (h + j) % N) : i = j := by
  have h1 : i ≡ j [MOD N] := Nat.ModEq.add_left_cancel' h e
  exact Nat.ModEq.eq_of_lt_of_lt h1 hi hj

theorem slot_init (N j : Nat) : (slot (init_queue N) j).valid = false := by
  unfold slot init_queue
  simp only [List.getD_eq_getElem?_getD]
  rcases Nat.lt_or_ge j N with h | h
  · simp [List.getElem?_replicate, h, zero_slot]
  · simp [List.getElem?_replicate, Nat.not_lt.mpr h, zero_slot]

theorem holds_init (N : Nat) (h0 : 0 < N) (hN : N ≤ 2 ^ 64) : Holds N (init_queue N) [] := by
  refine ⟨⟨h0, hN, by simp [init_queue], h0, h0⟩, rfl, Nat.zero_le _, ?_, ?_, ?_⟩
  · simp [init_queue]
  · intro i a d h; simp at h
  · intro j _ _; exact slot_init N j

theorem holds_full_iff (N : Nat) (s : SCQ) (pend : List (Nat × Nat)) (h : Holds N s pend) :
    (slot s s.tail).valid = true ↔ pend.length = N := by
  obtain ⟨⟨h0, hN, hl, hh, ht⟩, hov, hlen, htail, hent, hinv⟩ := h
  constructor
  · intro hv
    by_contra hne
    have hlt : pend.length < N := lt_of_le_of_ne hlen hne
    have := hinv s.tail ht (by
      intro i hi e
      rw [htail] at e
      have := mod_add_inj N s.head _ _ hlt (by omega) e
      omega)
    rw [this] at hv
    exact Bool.noConfusion hv
  · intro hfull
    have hpos : 0 < pend.length := by omega
    have ht0 : s.tail = s.head := by
      rw [htail, hfull, Nat.add_mod_right, Nat.mod_eq_of_lt hh]
    obtain ⟨x, hx⟩ : ∃ x, pend[0]? = some x := ⟨pend[0], by simp [List.getElem?_eq_getElem hpos]⟩
    have := hent 0 x.1 x.2 hx
    rw [Nat.add_zero, Nat.mod_eq_of_lt hh] at this
    rw [ht0, this]


theorem holds_push (N : Nat) (s : SCQ) (pend : List (Nat × Nat)) (addr data : Nat) (len : Int)
    (h : Holds N s pend) (hlt : pend.length < N) (hlen : len = 1 ∨ len = 2 ∨ len = 4) :
    Holds N (store_commit_queue_push N s addr data len).st
      (pend ++ [(addr, norm_data addr data len)]) := by
  have hfree : (slot s s.tail).valid = false := by
    cases hv : (slot s s.tail).valid
    · rfl
    · have := (holds_full_iff N s pend h).mp hv; omega
  obtain ⟨⟨h0, hN, hl, hh, ht⟩, hov, _, htail, hent, hinv⟩ := h
  have htl : s.tail < s.store_commit_queue.length := by omega
  rw [push_eq N s addr data len hov hlen, tail_step N s.tail hN ht]
  refine ⟨⟨h0, hN, by simpa using hl, hh, Nat.mod_lt _ h0⟩, hfree, by simp; omega, ?_, ?_, ?_⟩
  · show (s.tail + 1) % N = _
    rw [htail, List.length_append, List.length_singleton, Nat.mod_add_mod, Nat.add_assoc]
  · intro i a d hi
    show slot _ ((s.head + i) % N) = _
    rcases Nat.lt_or_ge i pend.length with hil | hil
    · rw [List.getElem?_append_left hil] at hi
      have hne : (s.head + i) % N ≠ s.tail := by
        intro e
        rw [htail] at e
        have := mod_add_inj N s.head _ _ (by omega) hlt e
        omega
      rw [slot_set_ne _ _ _ _ _ _ _ hne]
      exact hent i a d hi
    · rw [List.getElem?_append_right hil] at hi
      have hi0 : i - pend.length = 0 := by
        by_contra hc
        have : 1 ≤ i - pend.length := Nat.one_le_iff_ne_zero.mpr hc
        rw [List.getElem?_eq_none (by simpa using this)] at hi
        exact Option.noConfusion hi
      rw [hi0] at hi
      simp only [List.getElem?_cons_zero, Option.some.injEq, Prod.mk.injEq] at hi
      have hie : i = pend.length := by omega
      rw [hie, ← htail, slot_set_self _ _ _ _ _ _ htl, ← hi.1, ← hi.2]
  · intro j hj hall
    have hne : j ≠ s.tail := by
      rw [htail]
      exact hall pend.length (by simp)
    rw [slot_set_ne _ _ _ _ _ _ _ hne]
    exact hinv j hj (fun i hi => hall i (by simp; omega))


theorem holds_pop_nil (N : Nat) (s : SCQ) (h : Holds N s []) :
    store_commit_queue_pop N s = (none, s) := by
  obtain ⟨⟨_, _, _, hh, _⟩, _, _, _, _, hinv⟩ := h
  exact pop_empty N s (hinv s.head hh (fun i hi => absurd hi (Nat.not_lt_zero i)))

theorem holds_pop_cons (N : Nat) (s : SCQ) (a d : Nat) (pend : List (Nat × Nat))
    (h : Holds N s ((a, d) :: pend)) :
    ∃ s1, store_commit_queue_pop N s = (some s.head, s1) ∧
      (slot s1 s.head).addr = a ∧ (slot s1 s.head).data = d ∧ Holds N s1 pend := by
  obtain ⟨⟨h0, hN, hl, hh, ht⟩, hov, hlen, htail, hent, hinv⟩ := h
  have hhl : s.head < s.store_commit_queue.length := by omega
  have hhead : slot s s.head = { addr := a, data := d, valid := true } := by
    have := hent 0 a d (by simp)
    rwa [Nat.add_zero, Nat.mod_eq_of_lt hh] at this
  have hv : (slot s s.head).valid = true := by rw [hhead]
  simp only [List.length_cons] at hlen htail
  refine ⟨_, pop_eq N s hv, ?_, ?_, ?_⟩
  · rw [slot_set_self _ _ _ _ _ _ hhl, hhead]
  · rw [slot_set_self _ _ _ _ _ _ hhl, hhead]
  · rw [tail_step N s.head hN hh]
    refine ⟨⟨h0, hN, by simpa using hl, Nat.mod_lt _ h0, ht⟩, hov, by omega, ?_, ?_, ?_⟩
    · show s.tail = ((s.head + 1) % N + pend.length) % N
      rw [htail, Nat.mod_add_mod]
      congr 1; omega
    · intro i a1 d1 hi
      show slot _ (((s.head + 1) % N + i) % N) = _
      have hil : i < pend.length := by
        by_contra hc
        rw [List.getElem?_eq_none (Nat.le_of_not_lt hc)] at hi
        exact Option.noConfusion hi
      have hidx : ((s.head + 1) % N + i) % N = (s.head + (i + 1)) % N := by
        rw [Nat.mod_add_mod]; congr 1; omega
      have hne : (s.head + (i + 1)) % N ≠ s.head := by
        intro e
        have e1 : (s.head + (i + 1)) % N = (s.head + 0) % N := by
          rw [e, Nat.add_zero, Nat.mod_eq_of_lt hh]
        have := mod_add_inj N s.head _ _ (by omega) h0 e1
        omega
      rw [hidx, slot_set_ne _ _ _ _ _ _ _ hne]
      exact hent (i + 1) a1 d1 (by simpa using hi)
    · intro j hj hall
      by_cases hjh : j = s.head
      · rw [hjh, slot_set_self _ _ _ _ _ _ hhl]
      · rw [slot_set_ne _ _ _ _ _ _ _ hjh]
        apply hinv j hj
        intro i hi
        rcases i with _ | i
        · rw [Nat.add_zero, Nat.mod_eq_of_lt hh]; exact hjh
        · have := hall i (by simpa using hi)
          have hidx : ((s.head + 1) % N + i) % N = (s.head + (i + 1)) % N := by
            rw [Nat.mod_add_mod]; congr 1; omega
          rwa [hidx] at this

theorem run_latched (N : Nat) (ops : List QueueOp) :
    ∀ s : SCQ, s.overflow = true → (run_ops N s ops).1.overflow = true := by
  induction ops with
  | nil => intro s h; exact h
  | cons op rest ih =>
    intro s h
    cases op with
    | push addr data len =>
      simp only [run_ops, push_latched N s addr data len h]
      exact ih s h
    | pop =>
      cases hv : (slot s s.head).valid
      · simp only [run_ops, pop_empty N s hv]
        exact ih s h
      · simp only [run_ops, pop_eq N s hv]
        exact ih _ h

theorem run_fifo (N : Nat) (ops : List QueueOp) :
    ∀ (s : SCQ) (pend : List (Nat × Nat)), Holds N s pend → widths_ok ops →
      (run_ops N s ops).1.overflow = false →
      (run_ops N s ops).2 <+: pend ++ pushed ops := by
  induction ops with
  | nil => intro s pend _ _ _; exact List.nil_prefix
  | cons op rest ih =>
    intro s pend h hw hfin
    cases op with
    | push addr data len =>
      obtain ⟨hlen, hw⟩ := hw
      have hab : (store_commit_queue_push N s addr data len).aborted = false := by
        rw [push_eq N s addr data len h.2.1 hlen]
      simp only [run_ops, hab] at hfin ⊢
      have hlt : pend.length < N := by
        by_contra hc
        have hfull : pend.length = N := le_antisymm h.2.2.1 (Nat.le_of_not_lt hc)
        have hv := (holds_full_iff N s pend h).mpr hfull
        have hl : (store_commit_queue_push N s addr data len).st.overflow = true := by
          rw [push_eq N s addr data len h.2.1 hlen]; exact hv
        have := run_latched N rest _ hl
        simp [this] at hfin
      have := ih _ _ (holds_push N s pend addr data len h hlt hlen) hw (by simpa using hfin)
      simpa [pushed] using this
    | pop =>
      cases pend with
      | nil =>
        simp only [run_ops, holds_pop_nil N s h] at hfin ⊢
        exact ih s [] h hw hfin
      | cons x pend =>
        obtain ⟨a, d⟩ := x
        obtain ⟨s1, hp, ha, hd, hh⟩ := holds_pop_cons N s a d pend h
        simp only [run_ops, hp] at hfin ⊢
        rw [ha, hd]
        have := ih s1 pend hh hw hfin
        simpa [pushed, List.cons_prefix_cons] using this

/-! ## The push contract -/

/-- C1. On a well-formed queue whose overflow latch is clear and whose slot at
`tail` is not valid, `store_commit_queue_push addr data len` with `len` in
{1, 2, 4} completes and leaves in that slot `addr` unchanged, `valid = true`
and the width-normalised data: `(data & 0xff) << (8 * (addr mod 4))` for
width 1, `(data & 0xffff) << (8 * (addr mod 4))` for width 2, `data` for
width 4. It sets `tail` to `(tail + 1) mod STORE_QUEUE_SIZE` and leaves `head`,
the array length and every other slot unchanged; the latch stays clear and
nothing is printed. For `addr = 0x1003`, `data = 0xAB`, `len = 1` the stored
data is `0xAB000000`. -/
theorem push_writes_slot (N : Nat) (s : SCQ) (addr data : Nat) (len : Int)
    (hwf : WF N s) (hlen : len = 1 ∨ len = 2 ∨ len = 4)
    (hov : s.overflow = false) (hfree : (slot s s.tail).valid = false) :
    (store_commit_queue_push N s addr data len).aborted = false ∧
    (store_commit_queue_push N s addr data len).st.overflow = false ∧
    (store_commit_queue_push N s addr data len).out = [] ∧
    (slot (store_commit_queue_push N s addr data len).st s.tail).addr = addr ∧
    (slot (store_commit_queue_push N s addr data len).st s.tail).valid = true ∧
    (len = 1 → (slot (store_commit_queue_push N s addr data len).st s.tail).data
        = (data &&& 0xff) <<< (8 * (addr % 4))) ∧
    (len = 2 → (slot (store_commit_queue_push N s addr data len).st s.tail).data
        = (data &&& 0xffff) <<< (8 * (addr % 4))) ∧
    (len = 4 → (slot (store_commit_queue_push N s addr data len).st s.tail).data = data) ∧
    (store_commit_queue_push N s addr data len).st.tail = (s.tail + 1) % N ∧
    (store_commit_queue_push N s addr data len).st.head = s.head ∧
    (store_commit_queue_push N s addr data len).st.store_commit_queue.length
        = s.store_commit_queue.length ∧
    (∀ j, j ≠ s.tail →
        slot (store_commit_queue_push N s addr data len).st j = slot s j) ∧
    (addr = 0x1003 → data = 0xAB → len = 1 →
        (slot (store_commit_queue_push N s addr data len).st s.tail).data = 0xAB000000) := by
  obtain ⟨_, hN, hl, _, ht⟩ := hwf
  have htl : s.tail < s.store_commit_queue.length := by omega
  rw [push_eq N s addr data len hov hlen]
  simp only [slot_set_self _ _ _ _ _ _ htl, List.length_set, tail_step N s.tail hN ht]
  refine ⟨by trivial, hfree, by simp [hfree], by trivial, by trivial, ?_, ?_, ?_,
    by trivial, by trivial, by trivial, ?_, ?_⟩
  · intro h; simp [norm_data, h]
  · intro h; simp [norm_data, h]
  · intro h; simp [norm_data, h]
  · intro j hj; rw [slot_set_ne _ _ _ _ _ _ _ hj]; rfl
  · intro ha hd h; subst ha hd h; decide

/-- C1, instantiated: the sub-word example on the initial queue of four slots. -/
theorem push_writes_slot_witness :
    (slot (store_commit_queue_push 4 (init_queue 4) 0x1003 0xAB 1).st 0).data = 0xAB000000 :=
  (push_writes_slot 4 (init_queue 4) 0x1003 0xAB 1 (by decide) (Or.inl rfl) rfl rfl).2.2.2.2.2.2.2.2.2.2.2.2
    rfl rfl rfl

theorem run_push_ops (N : Nat) (es : List (Nat × Nat × Int)) :
    ∀ (s : SCQ) (pend : List (Nat × Nat)), Holds N s pend → widths_ok (push_ops es) →
      pend.length + es.length ≤ N →
      Holds N (run_ops N s (push_ops es)).1 (pend ++ pushed (push_ops es)) := by
  induction es with
  | nil => intro s pend h _ _; simpa [push_ops, run_ops, pushed] using h
  | cons e rest ih =>
    intro s pend h hw hle
    obtain ⟨hlen, hw⟩ := hw
    simp only [List.length_cons] at hle
    have hab : (store_commit_queue_push N s e.1 e.2.1 e.2.2).aborted = false := by
      rw [push_eq N s _ _ _ h.2.1 hlen]
    have hh := holds_push N s pend e.1 e.2.1 e.2.2 h (by omega) hlen
    have := ih _ _ hh hw (by simp; omega)
    simpa [push_ops, run_ops, pushed, hab] using this

theorem run_pop_ops (N : Nat) (pend : List (Nat × Nat)) :
    ∀ (s : SCQ), Holds N s pend →
      (run_ops N s (pop_ops pend.length)).2 = pend ∧
      Holds N (run_ops N s (pop_ops pend.length)).1 [] := by
  induction pend with
  | nil => intro s h; exact ⟨rfl, h⟩
  | cons x pend ih =>
    intro s h
    obtain ⟨a, d⟩ := x
    obtain ⟨s1, hp, ha, hd, hh⟩ := holds_pop_cons N s a d pend h
    have := ih s1 hh
    simp only [pop_ops, List.length_cons, List.replicate_succ, run_ops, hp, ha, hd]
    exact ⟨by rw [show List.replicate pend.length QueueOp.pop = pop_ops pend.length from rfl,
      this.1], this.2⟩

theorem getElem?_of_initial {α : Type} (l1 l2 : List α) (h : l1 <+: l2) (i : Nat) (x : α)
    (hi : l1[i]? = some x) : l2[i]? = some x := by
  obtain ⟨t, rfl⟩ := h
  have hlt : i < l1.length := by
    by_contra hc
    rw [List.getElem?_eq_none (Nat.le_of_not_lt hc)] at hi
    exact Option.noConfusion hi
  rw [List.getElem?_append_left hlt]; exact hi

/-! ## FIFO order -/

/-- C2. FIFO order. Run any sequence of `store_commit_queue_push` (widths in
{1, 2, 4}) and `store_commit_queue_pop` calls from the initial empty queue. If
the overflow latch is clear at the end (it is never cleared once set, so it was
never set), then the `i`-th pop that returned an entry returned the address and
the width-normalised data of the `i`-th push. In particular, with at least two
slots, pushing `(a1, d1)` then `(a2, d2)` and popping twice yields `(a1, d1)`
then `(a2, d2)`. -/
theorem fifo_order (N : Nat) (ops : List QueueOp) (h0 : 0 < N) (hN : N ≤ 2 ^ 64)
    (hw : widths_ok ops)
    (hclear : (run_ops N (init_queue N) ops).1.overflow = false) :
    (∀ (i : Nat) (x : Nat × Nat),
      (run_ops N (init_queue N) ops).2[i]? = some x → (pushed ops)[i]? = some x) ∧
    (2 ≤ N → ∀ a1 d1 l1 a2 d2 l2, (l1 = 1 ∨ l1 = 2 ∨ l1 = 4) → (l2 = 1 ∨ l2 = 2 ∨ l2 = 4) →
      (run_ops N (init_queue N)
        [QueueOp.push a1 d1 l1, QueueOp.push a2 d2 l2, QueueOp.pop, QueueOp.pop]).2
        = [(a1, norm_data a1 d1 l1), (a2, norm_data a2 d2 l2)]) := by
  constructor
  · intro i x hi
    have := run_fifo N ops (init_queue N) [] (holds_init N h0 hN) hw hclear
    exact getElem?_of_initial _ _ (by simpa using this) i x hi
  · intro h2 a1 d1 l1 a2 d2 l2 hl1 hl2
    have hh := run_push_ops N [(a1, d1, l1), (a2, d2, l2)] (init_queue N) []
      (holds_init N h0 hN) ⟨hl1, hl2, trivial⟩ (by simpa using h2)
    have hp := (run_pop_ops N _ _ hh).1
    simp only [push_ops, List.map, pushed, List.nil_append, List.length_cons, List.length_nil,
      pop_ops, List.replicate] at hp hh
    rw [← hp]
    have hab1 : (store_commit_queue_push N (init_queue N) a1 d1 l1).aborted = false := by
      rw [push_eq N _ a1 d1 l1 rfl hl1]
    have hov1 : (store_commit_queue_push N (init_queue N) a1 d1 l1).st.overflow = false := by
      rw [push_eq N _ a1 d1 l1 rfl hl1]; exact slot_init N _
    have hab2 : (store_commit_queue_push N
        (store_commit_queue_push N (init_queue N) a1 d1 l1).st a2 d2 l2).aborted = false := by
      rw [push_eq N _ a2 d2 l2 hov1 hl2]
    simp only [run_ops, hab1, hab2]
    rfl

/-- C2, instantiated on a queue of two slots. -/
theorem fifo_order_witness :
    (pushed [QueueOp.push 1 10 4, QueueOp.pop, QueueOp.push 0x1003 0xAB 1, QueueOp.pop])[1]?
      = some (0x1003, 0xAB000000) :=
  (fifo_order 2 [QueueOp.push 1 10 4, QueueOp.pop, QueueOp.push 0x1003 0xAB 1, QueueOp.pop]
    (by decide) (by decide) ⟨Or.inr (Or.inr rfl), Or.inl rfl, trivial⟩ (by decide)).1
    1 (0x1003, 0xAB000000) (by decide)

/-! ## Overflow -/

/-- C3, evaluated on the code. On a queue of two slots, push `(1, 10)`,
`(2, 20)`, `(3, 30)` (width 4) without a pop. The third push finds the slot at
`tail` valid, sets the latch and prints the warning, and then still runs the
stores `commit->addr = addr; commit->valid = 1; commit->data = data` and
advances `tail`: slot 0 now holds `(3, 30)`, and two pops return `(3, 30)` and
`(2, 20)`, not the first two entries `(1, 10)` and `(2, 20)`. -/
theorem overflow_push_overwrites_oldest :
    (run_ops 2 (init_queue 2) (push_ops [(1, 10, 4), (2, 20, 4)])).1 =
      { store_commit_queue := [⟨1, 10, true⟩, ⟨2, 20, true⟩], head := 0, tail := 0,
        overflow := false } ∧
    store_commit_queue_push 2
        { store_commit_queue := [⟨1, 10, true⟩, ⟨2, 20, true⟩], head := 0, tail := 0,
          overflow := false } 3 30 4 =
      { st := { store_commit_queue := [⟨3, 30, true⟩, ⟨2, 20, true⟩], head := 0, tail := 1,
                overflow := true }
        out := [Msg.queue_overflow]
        aborted := false } ∧
    (run_ops 2 (init_queue 2)
        (push_ops [(1, 10, 4), (2, 20, 4), (3, 30, 4)] ++ pop_ops 2)).2 = [(3, 30), (2, 20)] ∧
    (run_ops 2 (init_queue 2)
        (push_ops [(1, 10, 4), (2, 20, 4), (3, 30, 4)] ++ pop_ops 2)).2 ≠ [(1, 10), (2, 20)] := by
  decide

theorem run_push_ops_latches (N : Nat) (es : List (Nat × Nat × Int)) :
    ∀ (s : SCQ) (pend : List (Nat × Nat)), Holds N s pend → widths_ok (push_ops es) →
      pend.length + es.length = N + 1 →
      (run_ops N s (push_ops es)).1.overflow = true := by
  induction es with
  | nil =>
    intro s pend h _ hlen
    have := h.2.2.1
    simp at hlen; omega
  | cons e rest ih =>
    intro s pend h hw hlen
    obtain ⟨hl, hw⟩ := hw
    simp only [List.length_cons] at hlen
    have hab : (store_commit_queue_push N s e.1 e.2.1 e.2.2).aborted = false := by
      rw [push_eq N s _ _ _ h.2.1 hl]
    simp only [push_ops, List.map, run_ops, hab]
    rcases Nat.lt_or_ge pend.length N with hlt | hge
    · have hh := holds_push N s pend e.1 e.2.1 e.2.2 h hlt hl
      exact ih _ _ hh hw (by simp; omega)
    · have hfull : pend.length = N := le_antisymm h.2.2.1 hge
      have hv := (holds_full_iff N s pend h).mpr hfull
      apply run_latched
      rw [push_eq N s _ _ _ h.2.1 hl]
      exact hv

theorem widths_ok_take (es : List (Nat × Nat × Int)) :
    ∀ k, widths_ok (push_ops es) → widths_ok (push_ops (es.take k)) := by
  induction es with
  | nil => intro k h; simpa using h
  | cons e rest ih =>
    intro k h
    cases k with
    | zero => trivial
    | succ k => exact ⟨h.1, ih k h.2⟩

/-- C4. Overflow detection. A `store_commit_queue_push` with width in {1, 2, 4}
on a queue whose latch is clear sets the latch if and only if the slot at `tail`
is valid before the call. Starting from the initial empty queue and pushing
`STORE_QUEUE_SIZE + 1` entries without a pop, the latch is clear after each of
the first `STORE_QUEUE_SIZE` pushes and set after the last one. -/
theorem overflow_detection (N : Nat) (h0 : 0 < N) (hN : N ≤ 2 ^ 64) :
    (∀ (s : SCQ) (addr data : Nat) (len : Int), (len = 1 ∨ len = 2 ∨ len = 4) →
      s.overflow = false →
      ((store_commit_queue_push N s addr data len).st.overflow = true ↔
        (slot s s.tail).valid = true)) ∧
    (∀ es : List (Nat × Nat × Int), widths_ok (push_ops es) → es.length = N + 1 →
      (∀ k, k ≤ N → (run_ops N (init_queue N) (push_ops (es.take k))).1.overflow = false) ∧
      (run_ops N (init_queue N) (push_ops es)).1.overflow = true) := by
  constructor
  · intro s addr data len hlen hov
    rw [push_eq N s addr data len hov hlen]
  · intro es hw hlen
    constructor
    · intro k hk
      have := run_push_ops N (es.take k) (init_queue N) [] (holds_init N h0 hN)
        (widths_ok_take es k hw) (by simp; omega)
      exact this.2.1
    · exact run_push_ops_latches N es (init_queue N) [] (holds_init N h0 hN) hw (by simpa using hlen)

/-- C4, instantiated on a queue of two slots and three pushes. -/
theorem overflow_detection_witness :
    (run_ops 2 (init_queue 2) (push_ops ([(1, 10, 4), (2, 20, 2), (3, 30, 1)].take 2))).1.overflow
        = false ∧
    (run_ops 2 (init_queue 2) (push_ops [(1, 10, 4), (2, 20, 2), (3, 30, 1)])).1.overflow = true :=
  ⟨((overflow_detection 2 (by decide) (by decide)).2 [(1, 10, 4), (2, 20, 2), (3, 30, 1)]
      ⟨Or.inr (Or.inr rfl), Or.inr (Or.inl rfl), Or.inl rfl, trivial⟩ rfl).1 2 (by decide),
   ((overflow_detection 2 (by decide) (by decide)).2 [(1, 10, 4), (2, 20, 2), (3, 30, 1)]
      ⟨Or.inr (Or.inr rfl), Or.inr (Or.inl rfl), Or.inl rfl, trivial⟩ rfl).2⟩

/-- C5. Overflow suppression. Once the latch is set, `store_commit_queue_push`
with any `addr`, `data` and `len` (supported width or not) returns the globals
unchanged (every slot, `head`, `tail`, the latch), prints nothing and does not
reach the assertion. -/
theorem push_latched_noop (N : Nat) (s : SCQ) (addr data : Nat) (len : Int)
    (h : s.overflow = true) :
    store_commit_queue_push N s addr data len = { st := s, out := [], aborted := false } :=
  push_latched N s addr data len h

/-- C5, instantiated: a latched queue and a push of unsupported width 8. -/
theorem push_latched_noop_witness :
    store_commit_queue_push 2
        { store_commit_queue := [⟨3, 30, true⟩, ⟨2, 20, true⟩], head := 0, tail := 1,
          overflow := true } 0x1008 7 8 =
      { st := { store_commit_queue := [⟨3, 30, true⟩, ⟨2, 20, true⟩], head := 0, tail := 1,
                overflow := true }
        out := []
        aborted := false } :=
  push_latched_noop 2 _ 0x1008 7 8 rfl

/-! ## Pop and check -/

/-- C6. On a well-formed queue, `store_commit_queue_pop` returns `NULL` and leaves
all globals unchanged when the slot at `head` is not valid. Otherwise it
returns the pointer to the slot at `head`, through which the address and data
held there before the call are read; that slot is now not valid, `head` is
`(head + 1) mod STORE_QUEUE_SIZE`, and `tail`, the latch, the array length and
every other slot are unchanged. -/
theorem pop_contract (N : Nat) (s : SCQ) (hwf : WF N s) :
    ((slot s s.head).valid = false → store_commit_queue_pop N s = (none, s)) ∧
    ((slot s s.head).valid = true →
      (store_commit_queue_pop N s).1 = some s.head ∧
      (slot (store_commit_queue_pop N s).2 s.head).addr = (slot s s.head).addr ∧
      (slot (store_commit_queue_pop N s).2 s.head).data = (slot s s.head).data ∧
      (slot (store_commit_queue_pop N s).2 s.head).valid = false ∧
      (store_commit_queue_pop N s).2.head = (s.head + 1) % N ∧
      (store_commit_queue_pop N s).2.tail = s.tail ∧
      (store_commit_queue_pop N s).2.overflow = s.overflow ∧
      (store_commit_queue_pop N s).2.store_commit_queue.length = s.store_commit_queue.length ∧
      (∀ j, j ≠ s.head → slot (store_commit_queue_pop N s).2 j = slot s j)) := by
  obtain ⟨_, hN, hl, hh, _⟩ := hwf
  have hhl : s.head < s.store_commit_queue.length := by omega
  refine ⟨pop_empty N s, ?_⟩
  intro hv
  rw [pop_eq N s hv]
  simp only [slot_set_self _ _ _ _ _ _ hhl, List.length_set, tail_step N s.head hN hh]
  refine ⟨by trivial, by trivial, by trivial, by trivial, by trivial, by trivial, by trivial,
    by trivial, ?_⟩
  intro j hj
  rw [slot_set_ne _ _ _ _ _ _ _ hj]; rfl

/-- C6, instantiated: popping a queue of two slots that holds one entry. -/
theorem pop_contract_witness :
    (store_commit_queue_pop 2
        { store_commit_queue := [⟨0, 0, false⟩, ⟨0x1000, 0x42, true⟩], head := 1, tail := 0,
          overflow := false }).2.head = 0 :=
  ((pop_contract 2
      { store_commit_queue := [⟨0, 0, false⟩, ⟨0x1000, 0x42, true⟩], head := 1, tail := 0,
        overflow := false } (by decide)).2 rfl).2.2.2.2.1

/-- C7. `check_store_commit ref_addr ref_data` returns 0 (Match) exactly when the
slot at `head` is valid, its `addr` equals `ref_addr` and its `data` equals
`ref_data`; in every other case it returns 1: with "NEMU does not commit any
store instruction" printed when the slot at `head` is not valid (Underrun), and
with the "ref different" line printed when a field differs (Mismatch). On a
queue whose head entry is `(0x1000, 0x42)`, checking `(0x1000, 0x42)` returns 0
and checking `(0x1000, 0x43)` returns 1; on the initial empty queue the check
returns 1. -/
theorem check_verdict (N pc : Nat) (s : SCQ) (ref_addr ref_data : Nat) :
    ((check_store_commit N pc s ref_addr ref_data).result = 0 ↔
      ((slot s s.head).valid = true ∧ (slot s s.head).addr = ref_addr ∧
        (slot s s.head).data = ref_data)) ∧
    ((check_store_commit N pc s ref_addr ref_data).result = 0 ∨
      (check_store_commit N pc s ref_addr ref_data).result = 1) ∧
    ((slot s s.head).valid = false →
      (check_store_commit N pc s ref_addr ref_data).result = 1 ∧
      (check_store_commit N pc s ref_addr ref_data).out = [Msg.no_store_committed]) ∧
    ((slot s s.head).valid = true →
      ((slot s s.head).addr ≠ ref_addr ∨ (slot s s.head).data ≠ ref_data) →
      (check_store_commit N pc s ref_addr ref_data).result = 1 ∧
      (check_store_commit N pc s ref_addr ref_data).out =
        [Msg.ref_different pc (slot s s.head).addr (slot s s.head).data]) ∧
    (slot s s.head = ⟨0x1000, 0x42, true⟩ →
      (check_store_commit N pc s 0x1000 0x42).result = 0 ∧
      (check_store_commit N pc s 0x1000 0x43).result = 1) ∧
    (check_store_commit N pc (init_queue N) ref_addr ref_data).result = 1 := by
  have hempty : ∀ (t : SCQ) (a d : Nat), (slot t t.head).valid = false →
      check_store_commit N pc t a d = ⟨1, t, [Msg.no_store_committed]⟩ := by
    intro t a d hv
    simp [check_store_commit, pop_empty N t hv]
  have hfull : ∀ (a d : Nat), (slot s s.head).valid = true →
      check_store_commit N pc s a d =
        if a ≠ (slot s s.head).addr ∨ d ≠ (slot s s.head).data then
          ⟨1, (store_commit_queue_pop N s).2,
            [Msg.ref_different pc (slot s s.head).addr (slot s s.head).data]⟩
        else ⟨0, (store_commit_queue_pop N s).2, []⟩ := by
    intro a d hv
    have hhl := valid_lt_length s s.head hv
    simp only [check_store_commit, pop_eq N s hv, slot_set_self _ _ _ _ _ _ hhl]
  refine ⟨?_, ?_, ?_, ?_, ?_, ?_⟩
  · cases hv : (slot s s.head).valid
    · rw [hempty s _ _ hv]; simp
    · rw [hfull _ _ hv]
      by_cases hc : ref_addr ≠ (slot s s.head).addr ∨ ref_data ≠ (slot s s.head).data
      · rw [if_pos hc]
        simp only [true_and]
        constructor
        · intro h; exact absurd h (by decide)
        · rintro ⟨ha, hd⟩; rcases hc with hc | hc
          · exact absurd ha.symm hc
          · exact absurd hd.symm hc
      · rw [if_neg hc]
        simp only [not_or, not_not] at hc
        simp [hc.1, hc.2]
  · cases hv : (slot s s.head).valid
    · rw [hempty s _ _ hv]; simp
    · rw [hfull _ _ hv]; split <;> simp
  · intro hv; rw [hempty s _ _ hv]; simp
  · intro hv hne
    rw [hfull _ _ hv, if_pos (by
      rcases hne with h | h
      · exact Or.inl (Ne.symm h)
      · exact Or.inr (Ne.symm h))]
    simp
  · intro hs
    have hv : (slot s s.head).valid = true := by rw [hs]
    rw [hfull _ _ hv, hfull _ _ hv, hs]
    simp
  · rw [hempty _ _ _ (slot_init N _)]

/-! ## Address translation -/

theorem host_offset_spec (c : Config) :
    ((HOST_PMEM_OFFSET c : Nat) : Int) = ((c.pmem : Int) - (c.CONFIG_MBASE : Int)) % 2 ^ 64 := by
  unfold HOST_PMEM_OFFSET
  exact Int.toNat_of_nonneg (Int.emod_nonneg _ (by norm_num))

theorem host_to_guest_guest_to_host (c : Config) (g : Nat) (hg : g < 2 ^ 32) :
    host_to_guest c (guest_to_host c g) = g := by
  have ho := host_offset_spec c
  unfold host_to_guest guest_to_host
  generalize HOST_PMEM_OFFSET c = off at ho ⊢
  omega

theorem guest_to_host_host_to_guest (c : Config) (h : Nat)
    (hcfg : c.CONFIG_MBASE + c.CONFIG_MSIZE ≤ 2 ^ 32) (hlo : c.pmem ≤ h)
    (hhi : h < c.pmem + c.CONFIG_MSIZE) (h64 : h < 2 ^ 64) :
    guest_to_host c (host_to_guest c h) = h := by
  have ho := host_offset_spec c
  unfold host_to_guest guest_to_host
  generalize HOST_PMEM_OFFSET c = off at ho ⊢
  omega

/-- C8. When the guest range `[CONFIG_MBASE, CONFIG_MBASE + CONFIG_MSIZE)` lies in
the 32-bit `paddr_t` space and the backing region lies in the 64-bit host
address space, `guest_to_host` and `host_to_guest` are inverse to each other:
`host_to_guest (guest_to_host g) = g` for every guest address `g` of the range,
`guest_to_host (host_to_guest h) = h` for every host address `h` of the backing
region `[pmem, pmem + CONFIG_MSIZE)`, and hence
`guest_to_host (host_to_guest (guest_to_host g)) = guest_to_host g`. -/
theorem translation_inverse (c : Config)
    (hcfg : c.CONFIG_MBASE + c.CONFIG_MSIZE ≤ 2 ^ 32)
    (hhost : c.pmem + c.CONFIG_MSIZE ≤ 2 ^ 64) :
    (∀ g, in_pmem c g = true → host_to_guest c (guest_to_host c g) = g) ∧
    (∀ h, c.pmem ≤ h → h < c.pmem + c.CONFIG_MSIZE →
      guest_to_host c (host_to_guest c h) = h) ∧
    (∀ g, in_pmem c g = true →
      guest_to_host c (host_to_guest c (guest_to_host c g)) = guest_to_host c g) := by
  have hin : ∀ g, in_pmem c g = true → g < 2 ^ 32 := by
    intro g hg
    simp only [in_pmem, decide_eq_true_eq] at hg
    omega
  refine ⟨?_, ?_, ?_⟩
  · intro g hg
    exact host_to_guest_guest_to_host c g (hin g hg)
  · intro h hlo hhi
    exact guest_to_host_host_to_guest c h hcfg hlo hhi (by omega)
  · intro g hg
    rw [host_to_guest_guest_to_host c g (hin g hg)]

/-- C8, instantiated on the example configuration. -/
theorem translation_inverse_witness :
    host_to_guest (example_config false true)
        (guest_to_host (example_config false true) 0x1c000004) = 0x1c000004 ∧
    guest_to_host (example_config false true)
        (host_to_guest (example_config false true) 0x7f0000000004) = 0x7f0000000004 :=
  ⟨(translation_inverse (example_config false true) (by decide) (by decide)).1
      0x1c000004 (by decide),
   (translation_inverse (example_config false true) (by decide) (by decide)).2.1
      0x7f0000000004 (by decide) (by decide)⟩

/-! ## The access dispatcher -/

/-- C9 as stated fails. With store recording enabled, the latch clear and an
in-range address, `paddr_write` of width 8 is stopped by the `assert(0)` of
`store_commit_queue_push` before `host_write` runs: host memory is unchanged,
which is not the state the backing-store store produces. -/
theorem in_range_write_not_performed :
    in_pmem (example_config false true) 0x1c000000 = true ∧
    (paddr_write (example_config false true) trace_host example_machine
        0x1c000000 8 5).aborted = true ∧
    (paddr_write (example_config false true) trace_host example_machine
        0x1c000000 8 5).mem = example_machine.mem ∧
    (paddr_write (example_config false true) trace_host example_machine
        0x1c000000 8 5).mem ≠
      trace_host.host_write example_machine.mem
        (guest_to_host (example_config false true) 0x1c000000) 8 5 := by
  decide

/-- C9, amended. With the MMIO fallback enabled (`CONFIG_SHARE` off), for every
`addr`, `len` and `data`: if `addr` is in range, `paddr_read` returns
`host_read` at `guest_to_host addr` and changes nothing, and `paddr_write`
makes no MMIO call and performs `host_write` at `guest_to_host addr`, except
when store recording is enabled, the latch is clear and `len` is not 1, 2 or 4:
then the assertion of `store_commit_queue_push` stops the process and host
memory is unchanged. If `addr` is out of range, `paddr_read` returns the
result of `mmio_read addr len`, `paddr_write` calls `mmio_write addr len data`,
and host memory and the queue are unchanged. -/
theorem dispatch_containment {M D : Type} (c : Config) (h : Host M D) (m : Machine M D)
    (addr : Nat) (len : Int) (data : Nat) (hshare : c.CONFIG_SHARE = false) :
    (in_pmem c addr = true →
      paddr_read c h m addr len = (h.host_read m.mem (guest_to_host c addr) len, m) ∧
      (paddr_write c h m addr len data).mmio = m.mmio ∧
      (paddr_write c h m addr len data).dev = m.dev ∧
      (¬ (c.CONFIG_DIFFTEST_STORE_COMMIT = true ∧ m.scq.overflow = false ∧
            len ≠ 1 ∧ len ≠ 2 ∧ len ≠ 4) →
        (paddr_write c h m addr len data).mem =
            h.host_write m.mem (guest_to_host c addr) len data ∧
        (paddr_write c h m addr len data).aborted = m.aborted) ∧
      ((c.CONFIG_DIFFTEST_STORE_COMMIT = true ∧ m.scq.overflow = false ∧
            len ≠ 1 ∧ len ≠ 2 ∧ len ≠ 4) →
        (paddr_write c h m addr len data).mem = m.mem ∧
        (paddr_write c h m addr len data).aborted = true)) ∧
    (in_pmem c addr = false →
      paddr_read c h m addr len =
        ((h.mmio_read m.dev addr len).1,
          { m with dev := (h.mmio_read m.dev addr len).2,
                   mmio := m.mmio ++ [MmioCall.read addr len] }) ∧
      (paddr_read c h m addr len).2.mem = m.mem ∧
      paddr_write c h m addr len data =
        { m with dev := h.mmio_write m.dev addr len data,
                 mmio := m.mmio ++ [MmioCall.write addr len data] } ∧
      (paddr_write c h m addr len data).mem = m.mem ∧
      (paddr_write c h m addr len data).scq = m.scq) := by
  constructor
  · intro hin
    have hw : paddr_write c h m addr len data = pmem_write c h m addr len data := by
      simp [paddr_write, hshare, hin]
    rw [hw]
    refine ⟨by simp [paddr_read, hshare, hin, pmem_read], ?_, ?_, ?_, ?_⟩
    · simp only [pmem_write]; split_ifs <;> rfl
    · simp only [pmem_write]; split_ifs <;> rfl
    · intro hno
      unfold pmem_write
      cases hd : c.CONFIG_DIFFTEST_STORE_COMMIT
      · simp
      · cases hov : m.scq.overflow
        · have hlen : len = 1 ∨ len = 2 ∨ len = 4 := by
            by_contra hc
            simp only [not_or] at hc
            exact hno ⟨hd, hov, hc.1, hc.2.1, hc.2.2⟩
          simp [push_eq _ m.scq addr data len hov hlen]
        · simp [push_latched _ m.scq addr data len hov]
    · rintro ⟨hd, hov, h1, h2, h4⟩
      simp [pmem_write, hd, store_commit_queue_push, hov, h1, h2, h4]
  · intro hout
    simp [paddr_read, paddr_write, hshare, hout]

/-- C9, instantiated: an in-range word store and an out-of-range word load on the
example machine. -/
theorem dispatch_containment_witness :
    (paddr_write (example_config false true) trace_host example_machine
        0x1c000000 4 5).mmio = [] ∧
    (paddr_read (example_config false true) trace_host example_machine
        0xa0000000 4).2.mem = [] :=
  ⟨((dispatch_containment (example_config false true) trace_host example_machine
      0x1c000000 4 5 rfl).1 (by decide)).2.1,
   ((dispatch_containment (example_config false true) trace_host example_machine
      0xa0000000 4 5 rfl).2 (by decide)).2.1⟩

/-- C10. With the MMIO fallback disabled (`CONFIG_SHARE` on), for every
out-of-range `addr` and every `len`: `paddr_read` returns 0 and only prints
the invalid-read line (no `host_read`, no MMIO call; memory, device and queue
unchanged), and `paddr_write` only prints the invalid-write line (memory,
queue and device unchanged, no MMIO call). -/
theorem share_out_of_range {M D : Type} (c : Config) (h : Host M D) (m : Machine M D)
    (addr : Nat) (len : Int) (data : Nat) (hshare : c.CONFIG_SHARE = true)
    (hout : in_pmem c addr = false) :
    paddr_read c h m addr len = (0, { m with out := m.out ++ [Msg.invalid_read addr] }) ∧
    (paddr_read c h m addr len).2.mem = m.mem ∧
    (paddr_read c h m addr len).2.mmio = m.mmio ∧
    (paddr_read c h m addr len).2.dev = m.dev ∧
    paddr_write c h m addr len data = { m with out := m.out ++ [Msg.invalid_write addr] } ∧
    (paddr_write c h m addr len data).mem = m.mem ∧
    (paddr_write c h m addr len data).scq = m.scq ∧
    (paddr_write c h m addr len data).mmio = m.mmio ∧
    (paddr_write c h m addr len data).dev = m.dev := by
  simp [paddr_read, paddr_write, hshare, hout]

/-- C10, instantiated: an out-of-range load on the example machine. -/
theorem share_out_of_range_witness :
    (paddr_read (example_config true true) trace_host example_machine 0xa0000000 4).1 = 0 :=
  congrArg Prod.fst
    (share_out_of_range (example_config true true) trace_host example_machine
      0xa0000000 4 0 rfl (by decide)).1

/-! ## Recording of stores by the dispatcher -/

theorem paddr_write_in_range {M D : Type} (c : Config) (h : Host M D) (m : Machine M D)
    (addr : Nat) (len : Int) (data : Nat) (hin : in_pmem c addr = true) :
    paddr_write c h m addr len data = pmem_write c h m addr len data := by
  unfold paddr_write
  cases c.CONFIG_SHARE <;> simp [hin]

/-- C11. With store recording enabled (`CONFIG_DIFFTEST_STORE_COMMIT`), with or
without `CONFIG_SHARE`: for every in-range `addr`, every `data` and every `len`
in {1, 2, 4}, `paddr_write` leaves the queue globals in the state
`store_commit_queue_push addr data len` produces from the prior ones, appends
what the push printed, and leaves host memory in the state `host_write` at
`guest_to_host addr` produces, whether the push recorded the store or not; for
every out-of-range `addr` (and every `len`) it leaves the queue globals
unchanged. -/
theorem write_records_store {M D : Type} (c : Config) (h : Host M D) (m : Machine M D)
    (addr : Nat) (len : Int) (data : Nat) (hdiff : c.CONFIG_DIFFTEST_STORE_COMMIT = true) :
    (in_pmem c addr = true → (len = 1 ∨ len = 2 ∨ len = 4) →
      (paddr_write c h m addr len data).scq =
        (store_commit_queue_push c.STORE_QUEUE_SIZE m.scq addr data len).st ∧
      (paddr_write c h m addr len data).out =
        m.out ++ (store_commit_queue_push c.STORE_QUEUE_SIZE m.scq addr data len).out ∧
      (paddr_write c h m addr len data).mem =
        h.host_write m.mem (guest_to_host c addr) len data ∧
      (paddr_write c h m addr len data).aborted = m.aborted) ∧
    (in_pmem c addr = false → (paddr_write c h m addr len data).scq = m.scq) := by
  constructor
  · intro hin hlen
    have hab : (store_commit_queue_push c.STORE_QUEUE_SIZE m.scq addr data len).aborted
        = false := by
      cases hov : m.scq.overflow
      · rw [push_eq _ m.scq addr data len hov hlen]
      · rw [push_latched _ m.scq addr data len hov]
    rw [paddr_write_in_range c h m addr len data hin]
    simp [pmem_write, hdiff, hab]
  · intro hout
    unfold paddr_write
    cases c.CONFIG_SHARE <;> simp [hout]

/-- C11, instantiated: a byte store to `0x1c000003` on the example machine. -/
theorem write_records_store_witness :
    (slot (paddr_write (example_config false true) trace_host example_machine
        0x1c000003 1 0xAB).scq 0) = ⟨0x1c000003, 0xAB000000, true⟩ ∧
    (paddr_write (example_config false true) trace_host example_machine
        0x1c000003 1 0xAB).mem = [(0x7f0000000003, 1, 0xAB)] :=
  ⟨by
    rw [((write_records_store (example_config false true) trace_host example_machine
      0x1c000003 1 0xAB rfl).1 (by decide) (Or.inl rfl)).1]
    decide,
   by
    rw [((write_records_store (example_config false true) trace_host example_machine
      0x1c000003 1 0xAB rfl).1 (by decide) (Or.inl rfl)).2.2.1]
    decide⟩

/-- C12. `store_commit_queue_push` is stopped by its `assert(0)` exactly when the
latch is clear and `len` is none of 1, 2, 4. In particular width 8 on an
unlatched queue faults, and a push of width 1, 2 or 4 never faults, whatever
the queue state. -/
theorem push_fault_iff (N : Nat) (s : SCQ) (addr data : Nat) (len : Int) :
    ((store_commit_queue_push N s addr data len).aborted = true ↔
      (s.overflow = false ∧ len ≠ 1 ∧ len ≠ 2 ∧ len ≠ 4)) ∧
    ((store_commit_queue_push N s addr data 8).aborted = true ↔ s.overflow = false) ∧
    (store_commit_queue_push N s addr data 1).aborted = false ∧
    (store_commit_queue_push N s addr data 2).aborted = false ∧
    (store_commit_queue_push N s addr data 4).aborted = false := by
  have key : ∀ l : Int, (store_commit_queue_push N s addr data l).aborted = true ↔
      (s.overflow = false ∧ l ≠ 1 ∧ l ≠ 2 ∧ l ≠ 4) := by
    intro l
    cases hov : s.overflow
    · by_cases h1 : l = 1
      · rw [push_eq N s addr data l hov (Or.inl h1)]; simp [h1]
      · by_cases h2 : l = 2
        · rw [push_eq N s addr data l hov (Or.inr (Or.inl h2))]; simp [h2]
        · by_cases h4 : l = 4
          · rw [push_eq N s addr data l hov (Or.inr (Or.inr h4))]; simp [h4]
          · simp [store_commit_queue_push, hov, h1, h2, h4]
    · simp [push_latched N s addr data l hov]
  refine ⟨key len, ?_, ?_, ?_, ?_⟩
  · rw [key 8]; simp
  · cases hc : (store_commit_queue_push N s addr data 1).aborted
    · rfl
    · exact absurd rfl ((key 1).mp hc).2.1
  · cases hc : (store_commit_queue_push N s addr data 2).aborted
    · rfl
    · exact absurd rfl ((key 2).mp hc).2.2.1
  · cases hc : (store_commit_queue_push N s addr data 4).aborted
    · rfl
    · exact absurd rfl ((key 4).mp hc).2.2.2

/-! ## Placement of sub-word data -/

/-- A value of `w` bytes shifted left by `o` bytes has zero bytes below offset
`o` and from offset `o + w` on. -/
theorem byte_at_shifted (x o w k : Nat) (hx : x < 2 ^ (8 * w)) (hk : k < o ∨ o + w ≤ k) :
    byte_at (x * 2 ^ (8 * o)) k = 0 := by
  unfold byte_at
  rcases hk with hk | hk
  · have e : 8 * o = 8 * k + (8 + 8 * (o - k - 1)) := by omega
    have hpos : 0 < 2 ^ (8 * k) := Nat.pow_pos (by norm_num)
    rw [e, pow_add, pow_add]
    have e2 : x * (2 ^ (8 * k) * (2 ^ 8 * 2 ^ (8 * (o - k - 1)))) =
        2 ^ (8 * k) * (256 * (x * 2 ^ (8 * (o - k - 1)))) := by ring
    rw [e2, Nat.mul_div_cancel_left _ hpos, Nat.mul_mod_right]
  · have h1 : x * 2 ^ (8 * o) < 2 ^ (8 * k) := by
      calc x * 2 ^ (8 * o) < 2 ^ (8 * w) * 2 ^ (8 * o) :=
            Nat.mul_lt_mul_of_pos_right hx (Nat.pow_pos (by norm_num))
        _ = 2 ^ (8 * (o + w)) := by rw [← pow_add]; congr 1; omega
        _ ≤ 2 ^ (8 * k) := Nat.pow_le_pow_right (by norm_num) (by omega)
    rw [Nat.div_eq_of_lt h1]

theorem and_mask_lt (x m w : Nat) (hm : m < 2 ^ (8 * w)) : x &&& m < 2 ^ (8 * w) :=
  lt_of_le_of_lt Nat.and_le_right hm

/-- The data stored by a push that is neither latched nor refused. -/
theorem push_stored_data (N : Nat) (s : SCQ) (addr data : Nat) (len : Int)
    (hwf : WF N s) (hov : s.overflow = false) (hlen : len = 1 ∨ len = 2 ∨ len = 4) :
    (slot (store_commit_queue_push N s addr data len).st s.tail).data
      = norm_data addr data len := by
  obtain ⟨_, _, hl, _, ht⟩ := hwf
  rw [push_eq N s addr data len hov hlen, slot_set_self _ _ _ _ _ _ (by omega)]

/-- C13 as stated fails. A push of width 2 at `addr = 3` (`addr mod 4 = 3`) with
`data = 0xffff` stores `0xffff000000`, which is not below `2 ^ 32`: byte 4 of
the stored value, outside the 4-byte lane, is `0xff`. -/
theorem halfword_leaves_lane :
    (slot (store_commit_queue_push 4 (init_queue 4) 3 0xffff 2).st 0).data = 0xffff000000 ∧
    ¬ (slot (store_commit_queue_push 4 (init_queue 4) 3 0xffff 2).st 0).data < 2 ^ 32 ∧
    byte_at (slot (store_commit_queue_push 4 (init_queue 4) 3 0xffff 2).st 0).data 4 = 0xff := by
  decide

/-- C13, amended. For every `addr` and `data`, on a well-formed unlatched queue:
the data stored by a push of width 1 is below `2 ^ 32`; the data stored by a
push of width 2 is below `2 ^ 32` when `addr mod 4` is at most 2, and below
`2 ^ 40` in every case; and for both widths every byte of the stored 64-bit
value outside the offsets `addr mod 4, ..., addr mod 4 + len - 1` is zero. -/
theorem subword_placement (N : Nat) (s : SCQ) (addr data : Nat)
    (hwf : WF N s) (hov : s.overflow = false) :
    (slot (store_commit_queue_push N s addr data 1).st s.tail).data < 2 ^ 32 ∧
    (addr % 4 ≤ 2 →
      (slot (store_commit_queue_push N s addr data 2).st s.tail).data < 2 ^ 32) ∧
    (slot (store_commit_queue_push N s addr data 2).st s.tail).data < 2 ^ 40 ∧
    (∀ k, (k < addr % 4 ∨ addr % 4 + 1 ≤ k) →
      byte_at (slot (store_commit_queue_push N s addr data 1).st s.tail).data k = 0) ∧
    (∀ k, (k < addr % 4 ∨ addr % 4 + 2 ≤ k) →
      byte_at (slot (store_commit_queue_push N s addr data 2).st s.tail).data k = 0) := by
  rw [push_stored_data N s addr data 1 hwf hov (Or.inl rfl),
    push_stored_data N s addr data 2 hwf hov (Or.inr (Or.inl rfl))]
  have ho : addr % 4 < 4 := Nat.mod_lt _ (by norm_num)
  have h1 : data &&& 0xff < 2 ^ (8 * 1) := and_mask_lt data 0xff 1 (by norm_num)
  have h2 : data &&& 0xffff < 2 ^ (8 * 2) := and_mask_lt data 0xffff 2 (by norm_num)
  have e1 : norm_data addr data 1 = (data &&& 0xff) * 2 ^ (8 * (addr % 4)) := by
    simp [norm_data, Nat.shiftLeft_eq]
  have e2 : norm_data addr data 2 = (data &&& 0xffff) * 2 ^ (8 * (addr % 4)) := by
    simp [norm_data, Nat.shiftLeft_eq]
  rw [e1, e2]
  have bound : ∀ (x w b : Nat), x < 2 ^ (8 * w) → 8 * w + 8 * (addr % 4) ≤ b →
      x * 2 ^ (8 * (addr % 4)) < 2 ^ b := by
    intro x w b hx hb
    calc x * 2 ^ (8 * (addr % 4)) < 2 ^ (8 * w) * 2 ^ (8 * (addr % 4)) :=
          Nat.mul_lt_mul_of_pos_right hx (Nat.pow_pos (by norm_num))
      _ = 2 ^ (8 * w + 8 * (addr % 4)) := by rw [← pow_add]
      _ ≤ 2 ^ b := Nat.pow_le_pow_right (by norm_num) hb
  refine ⟨bound _ 1 32 h1 (by omega), fun h => bound _ 2 32 h2 (by omega),
    bound _ 2 40 h2 (by omega), ?_, ?_⟩
  · intro k hk; exact byte_at_shifted _ _ 1 k h1 hk
  · intro k hk; exact byte_at_shifted _ _ 2 k h2 hk

/-- C13, instantiated: a byte store at lane offset 3 on the initial queue of four
slots. -/
theorem subword_placement_witness :
    (slot (store_commit_queue_push 4 (init_queue 4) 0x1003 0xAB 1).st 0).data < 2 ^ 32 :=
  (subword_placement 4 (init_queue 4) 0x1003 0xAB (by decide) rfl).1

/-! ## Bytes touched by an in-range access -/

theorem guest_to_host_in_range (c : Config) (addr : Nat)
    (hhost : c.pmem + c.CONFIG_MSIZE ≤ 2 ^ 64) (hin : in_pmem c addr = true) :
    guest_to_host c addr = c.pmem + (addr - c.CONFIG_MBASE) := by
  have ho := host_offset_spec c
  simp only [in_pmem, decide_eq_true_eq] at hin
  unfold guest_to_host
  generalize HOST_PMEM_OFFSET c = off at ho ⊢
  omega

theorem paddr_read_in_range {M D : Type} (c : Config) (h : Host M D) (m : Machine M D)
    (addr : Nat) (len : Int) (hin : in_pmem c addr = true) :
    paddr_read c h m addr len = (h.host_read m.mem (guest_to_host c addr) len, m) := by
  unfold paddr_read pmem_read
  cases c.CONFIG_SHARE <;> simp [hin]

/-- The bytes of an access of width `w` at the host address of an in-range
guest address. -/
theorem host_access_bytes_in_range (c : Config) (addr w : Nat)
    (hhost : c.pmem + c.CONFIG_MSIZE ≤ 2 ^ 64) (hin : in_pmem c addr = true) :
    host_access_bytes (guest_to_host c addr) w =
      (List.range w).map (fun i => c.pmem + (addr - c.CONFIG_MBASE + i)) := by
  simp only [host_access_bytes, guest_to_host_in_range c addr hhost hin, Nat.add_assoc]

/-- The bytes loaded by an in-range `paddr_read`. -/
theorem paddr_read_bytes_in_range (c : Config) (scq : SCQ) (addr w : Nat)
    (hin : in_pmem c addr = true) :
    paddr_read_bytes c scq addr (w : Int) = host_access_bytes (guest_to_host c addr) w := by
  unfold paddr_read_bytes
  rw [paddr_read_in_range c access_probe (probe_machine scq) addr w hin]
  simp [access_probe]

/-- The bytes stored to by an in-range `paddr_write`: none when the push is
stopped by its assertion, those of `host_write` otherwise. -/
theorem paddr_write_bytes_in_range (c : Config) (scq : SCQ) (addr w data : Nat)
    (hin : in_pmem c addr = true) :
    paddr_write_bytes c scq addr (w : Int) data =
      if c.CONFIG_DIFFTEST_STORE_COMMIT = true ∧
          (store_commit_queue_push c.STORE_QUEUE_SIZE scq addr data (w : Int)).aborted = true
      then [] else host_access_bytes (guest_to_host c addr) w := by
  unfold paddr_write_bytes
  rw [paddr_write_in_range c access_probe (probe_machine scq) addr w data hin]
  unfold pmem_write
  cases hd : c.CONFIG_DIFFTEST_STORE_COMMIT
  · simp [access_probe, probe_machine]
  · cases hab : (store_commit_queue_push c.STORE_QUEUE_SIZE (probe_machine scq).scq addr data
        (w : Int)).aborted
    · have hab1 : (store_commit_queue_push c.STORE_QUEUE_SIZE scq addr data (w : Int)).aborted
          = false := hab
      simp [access_probe, probe_machine, hab1]
    · have hab1 : (store_commit_queue_push c.STORE_QUEUE_SIZE scq addr data (w : Int)).aborted
          = true := hab
      simp [probe_machine, hab1]

theorem push_aborted_iff (N : Nat) (s : SCQ) (addr data : Nat) (len : Int) :
    (store_commit_queue_push N s addr data len).aborted = true ↔
      (s.overflow = false ∧ len ≠ 1 ∧ len ≠ 2 ∧ len ≠ 4) := by
  cases hov : s.overflow
  · by_cases h1 : len = 1
    · rw [push_eq N s addr data len hov (Or.inl h1)]; simp [h1]
    · by_cases h2 : len = 2
      · rw [push_eq N s addr data len hov (Or.inr (Or.inl h2))]; simp [h2]
      · by_cases h4 : len = 4
        · rw [push_eq N s addr data len hov (Or.inr (Or.inr h4))]; simp [h4]
        · simp [store_commit_queue_push, hov, h1, h2, h4]
  · simp [push_latched N s addr data len hov]

/-- C14 as stated fails. On the example configuration the last guest address
`0x23ffffff` passes `in_pmem`, and both `paddr_read` and `paddr_write` of
width 2 there (no assertion is reached) access the host address
`pmem + CONFIG_MSIZE`, whose offset in the backing region is `CONFIG_MSIZE`,
not less than `CONFIG_MSIZE`. -/
theorem edge_access_leaves_region :
    in_pmem (example_config false true) 0x23ffffff = true ∧
    paddr_read_bytes (example_config false true) (init_queue 16) 0x23ffffff 2 =
      [0x7f0000000000 + 0x7ffffff, 0x7f0000000000 + 0x8000000] ∧
    (paddr_write (example_config false true) access_probe (probe_machine (init_queue 16))
      0x23ffffff 2 5).aborted = false ∧
    paddr_write_bytes (example_config false true) (init_queue 16) 0x23ffffff 2 5 =
      [0x7f0000000000 + 0x7ffffff, 0x7f0000000000 + 0x8000000] ∧
    ¬ (0x23ffffff - (example_config false true).CONFIG_MBASE + (2 - 1)
        < (example_config false true).CONFIG_MSIZE) ∧
    ¬ (∀ b ∈ paddr_read_bytes (example_config false true) (init_queue 16) 0x23ffffff 2,
        b - (example_config false true).pmem < (example_config false true).CONFIG_MSIZE) ∧
    ¬ (∀ b ∈ paddr_write_bytes (example_config false true) (init_queue 16) 0x23ffffff 2 5,
        b - (example_config false true).pmem < (example_config false true).CONFIG_MSIZE) := by
  decide

/-- C14, amended. When the backing region lies in the 64-bit host address space,
for every `addr` that passes `in_pmem` and every width `w` in {1, 2, 4, 8}:
`paddr_read` makes its load by `host_read` at `guest_to_host addr`, whatever
the host, and the bytes it loads are exactly those at the offsets
`addr - BASE, ..., addr - BASE + w - 1` from `pmem`. `paddr_write` stores to
exactly the same bytes, except when store recording is enabled, the latch is
clear and `w = 8`: then the assertion of `store_commit_queue_push` stops it
and it stores to no byte. The first offset is less than `CONFIG_MSIZE`. All
bytes loaded or stored lie in the backing region when
`addr - BASE + w ≤ CONFIG_MSIZE`, which holds whenever `w` divides both
`addr - BASE` and `CONFIG_MSIZE`; otherwise the load reaches a byte at or past
`pmem + CONFIG_MSIZE`, and so does the store unless it is stopped. -/
theorem access_bytes_in_region {M D : Type} (c : Config) (h : Host M D) (m : Machine M D)
    (scq : SCQ) (addr w data : Nat)
    (hhost : c.pmem + c.CONFIG_MSIZE ≤ 2 ^ 64) (hin : in_pmem c addr = true)
    (hw : w = 1 ∨ w = 2 ∨ w = 4 ∨ w = 8) :
    paddr_read c h m addr (w : Int) =
      (h.host_read m.mem (c.pmem + (addr - c.CONFIG_MBASE)) (w : Int), m) ∧
    paddr_read_bytes c scq addr (w : Int) =
      (List.range w).map (fun i => c.pmem + (addr - c.CONFIG_MBASE + i)) ∧
    (¬ (c.CONFIG_DIFFTEST_STORE_COMMIT = true ∧ scq.overflow = false ∧ w = 8) →
      paddr_write_bytes c scq addr (w : Int) data =
        (List.range w).map (fun i => c.pmem + (addr - c.CONFIG_MBASE + i))) ∧
    ((c.CONFIG_DIFFTEST_STORE_COMMIT = true ∧ scq.overflow = false ∧ w = 8) →
      paddr_write_bytes c scq addr (w : Int) data = [] ∧
      (paddr_write c access_probe (probe_machine scq) addr (w : Int) data).aborted = true) ∧
    addr - c.CONFIG_MBASE < c.CONFIG_MSIZE ∧
    (addr - c.CONFIG_MBASE + w ≤ c.CONFIG_MSIZE →
      (∀ b ∈ paddr_read_bytes c scq addr (w : Int),
        c.pmem ≤ b ∧ b - c.pmem < c.CONFIG_MSIZE) ∧
      (∀ b ∈ paddr_write_bytes c scq addr (w : Int) data,
        c.pmem ≤ b ∧ b - c.pmem < c.CONFIG_MSIZE)) ∧
    (w ∣ addr - c.CONFIG_MBASE → w ∣ c.CONFIG_MSIZE →
      addr - c.CONFIG_MBASE + w ≤ c.CONFIG_MSIZE) ∧
    (c.CONFIG_MSIZE < addr - c.CONFIG_MBASE + w →
      (∃ b ∈ paddr_read_bytes c scq addr (w : Int), c.pmem + c.CONFIG_MSIZE ≤ b) ∧
      (¬ (c.CONFIG_DIFFTEST_STORE_COMMIT = true ∧ scq.overflow = false ∧ w = 8) →
        ∃ b ∈ paddr_write_bytes c scq addr (w : Int) data, c.pmem + c.CONFIG_MSIZE ≤ b)) := by
  have hL := host_access_bytes_in_range c addr w hhost hin
  have hrd : paddr_read_bytes c scq addr (w : Int) =
      (List.range w).map (fun i => c.pmem + (addr - c.CONFIG_MBASE + i)) := by
    rw [paddr_read_bytes_in_range c scq addr w hin, hL]
  have habort : (store_commit_queue_push c.STORE_QUEUE_SIZE scq addr data (w : Int)).aborted
      = true ↔ (scq.overflow = false ∧ w = 8) := by
    rw [push_aborted_iff]
    constructor
    · rintro ⟨hov, h1, h2, h4⟩
      refine ⟨hov, ?_⟩
      rcases hw with e | e | e | e
      · exact absurd (by rw [e]; rfl) h1
      · exact absurd (by rw [e]; rfl) h2
      · exact absurd (by rw [e]; rfl) h4
      · exact e
    · rintro ⟨hov, e⟩
      subst e
      exact ⟨hov, by decide, by decide, by decide⟩
  have hwr : paddr_write_bytes c scq addr (w : Int) data =
      if c.CONFIG_DIFFTEST_STORE_COMMIT = true ∧ scq.overflow = false ∧ w = 8 then []
      else (List.range w).map (fun i => c.pmem + (addr - c.CONFIG_MBASE + i)) := by
    rw [paddr_write_bytes_in_range c scq addr w data hin, hL]
    by_cases hc : c.CONFIG_DIFFTEST_STORE_COMMIT = true ∧ scq.overflow = false ∧ w = 8
    · rw [if_pos hc, if_pos ⟨hc.1, habort.mpr hc.2⟩]
    · rw [if_neg hc, if_neg (fun hx => hc ⟨hx.1, habort.mp hx.2⟩)]
  have hfirst : addr - c.CONFIG_MBASE < c.CONFIG_MSIZE := by
    simp only [in_pmem, decide_eq_true_eq] at hin
    omega
  have hwpos : 0 < w := by rcases hw with e | e | e | e <;> omega
  have hmem : ∀ b, b ∈ (List.range w).map (fun i => c.pmem + (addr - c.CONFIG_MBASE + i)) →
      addr - c.CONFIG_MBASE + w ≤ c.CONFIG_MSIZE →
      c.pmem ≤ b ∧ b - c.pmem < c.CONFIG_MSIZE := by
    intro b hb hfit
    simp only [List.mem_map, List.mem_range] at hb
    obtain ⟨i, hi, rfl⟩ := hb
    omega
  have hlast : c.CONFIG_MSIZE < addr - c.CONFIG_MBASE + w →
      ∃ b ∈ (List.range w).map (fun i => c.pmem + (addr - c.CONFIG_MBASE + i)),
        c.pmem + c.CONFIG_MSIZE ≤ b := by
    intro hover
    refine ⟨c.pmem + (addr - c.CONFIG_MBASE + (w - 1)), ?_, by omega⟩
    simp only [List.mem_map, List.mem_range]
    exact ⟨w - 1, by omega, rfl⟩
  refine ⟨?_, hrd, ?_, ?_, hfirst, ?_, ?_, ?_⟩
  · rw [paddr_read_in_range c h m addr w hin, guest_to_host_in_range c addr hhost hin]
  · intro hno
    rw [hwr, if_neg hno]
  · intro hab
    refine ⟨by rw [hwr, if_pos hab], ?_⟩
    rw [paddr_write_in_range c access_probe (probe_machine scq) addr w data hin]
    have := habort.mpr hab.2
    simp [pmem_write, hab.1, probe_machine, this]
  · intro hfit
    refine ⟨fun b hb => hmem b (by rwa [hrd] at hb) hfit, ?_⟩
    intro b hb
    rw [hwr] at hb
    split_ifs at hb
    · exact absurd hb (List.not_mem_nil b)
    · exact hmem b hb hfit
  · intro hd1 hd2
    obtain ⟨a, ha⟩ := hd1
    obtain ⟨b, hb⟩ := hd2
    rw [ha, hb] at hfirst
    have hab : a < b := lt_of_mul_lt_mul_left hfirst (Nat.zero_le w)
    rw [ha, hb]
    calc w * a + w = w * (a + 1) := by ring
      _ ≤ w * b := Nat.mul_le_mul_left w hab
  · intro hover
    refine ⟨by rw [hrd]; exact hlast hover, ?_⟩
    intro hno
    rw [hwr, if_neg hno]
    exact hlast hover

/-- C14, instantiated: the last byte stored by an aligned word write at the last
word of the example region. -/
theorem access_bytes_in_region_witness :
    (example_config false true).pmem ≤ 0x7f0007ffffff ∧
    0x7f0007ffffff - (example_config false true).pmem
      < (example_config false true).CONFIG_MSIZE :=
  ((access_bytes_in_region (example_config false true) trace_host example_machine
      (init_queue 16) 0x23fffffc 4 5 (by decide) (by decide)
      (Or.inr (Or.inr (Or.inl rfl)))).2.2.2.2.2.1 (by decide)).2 0x7f0007ffffff (by decide)

/-! ## Effect of the checker on the queue -/

theorem check_st (N pc : Nat) (s : SCQ) (addr data : Nat) :
    (check_store_commit N pc s addr data).st = (store_commit_queue_pop N s).2 := by
  unfold check_store_commit
  split
  · next s1 h => rw [h]
  · next p s1 h => rw [h]; split <;> rfl

theorem pop_frame (N : Nat) (s : SCQ) :
    (store_commit_queue_pop N s).2.tail = s.tail ∧
    (store_commit_queue_pop N s).2.overflow = s.overflow := by
  cases hv : (slot s s.head).valid
  · rw [pop_empty N s hv]; exact ⟨rfl, rfl⟩
  · rw [pop_eq N s hv]; exact ⟨rfl, rfl⟩

/-- C15. `check_store_commit` leaves the queue globals exactly as one
`store_commit_queue_pop` does, whatever its verdict. On a well-formed queue:
when the slot at `head` is valid, then for a matching and for a differing
reference pair alike that slot becomes not valid with its `addr` and `data`
untouched, `head` becomes `(head + 1) mod STORE_QUEUE_SIZE` and every other
slot is unchanged; when the slot at `head` is not valid the globals are
unchanged. In every case `tail` and the latch are unchanged, and a check made
on a machine leaves host memory and the device unchanged. -/
theorem check_consumes_like_pop {M D : Type} (c : Config) (pc : Nat) (m : Machine M D)
    (addr data : Nat) (hwf : WF c.STORE_QUEUE_SIZE m.scq) :
    (check_store_commit c.STORE_QUEUE_SIZE pc m.scq addr data).st
      = (store_commit_queue_pop c.STORE_QUEUE_SIZE m.scq).2 ∧
    ((slot m.scq m.scq.head).valid = true →
      slot (check_store_commit c.STORE_QUEUE_SIZE pc m.scq addr data).st m.scq.head
        = { (slot m.scq m.scq.head) with valid := false } ∧
      (check_store_commit c.STORE_QUEUE_SIZE pc m.scq addr data).st.head
        = (m.scq.head + 1) % c.STORE_QUEUE_SIZE ∧
      (∀ j, j ≠ m.scq.head →
        slot (check_store_commit c.STORE_QUEUE_SIZE pc m.scq addr data).st j
          = slot m.scq j)) ∧
    ((slot m.scq m.scq.head).valid = false →
      (check_store_commit c.STORE_QUEUE_SIZE pc m.scq addr data).st = m.scq) ∧
    (check_store_commit c.STORE_QUEUE_SIZE pc m.scq addr data).st.tail = m.scq.tail ∧
    (check_store_commit c.STORE_QUEUE_SIZE pc m.scq addr data).st.overflow
      = m.scq.overflow ∧
    (machine_check c pc m addr data).2.mem = m.mem ∧
    (machine_check c pc m addr data).2.dev = m.dev ∧
    (machine_check c pc m addr data).2.mmio = m.mmio ∧
    (machine_check c pc m addr data).2.scq
      = (store_commit_queue_pop c.STORE_QUEUE_SIZE m.scq).2 := by
  obtain ⟨_, hN, hl, hh, _⟩ := hwf
  have hhl : m.scq.head < m.scq.store_commit_queue.length := by omega
  rw [check_st]
  refine ⟨rfl, ?_, ?_, (pop_frame _ _).1, (pop_frame _ _).2, rfl, rfl, rfl, ?_⟩
  · intro hv
    rw [pop_eq _ _ hv]
    refine ⟨slot_set_self _ _ _ _ _ _ hhl, tail_step _ _ hN hh, ?_⟩
    intro j hj
    rw [slot_set_ne _ _ _ _ _ _ _ hj]; rfl
  · intro hv
    rw [pop_empty _ _ hv]
  · show (check_store_commit c.STORE_QUEUE_SIZE pc m.scq addr data).st = _
    exact check_st _ _ _ _ _

/-- C15, instantiated: a mismatching check on a queue of sixteen slots holding one
entry consumes that entry. -/
theorem check_consumes_like_pop_witness :
    (check_store_commit 16 0 (store_commit_queue_push 16 (init_queue 16) 0x1000 0x42 4).st
        0x1000 0x43).st.head = 1 :=
  ((check_consumes_like_pop (example_config false true) 0
      { example_machine with
        scq := (store_commit_queue_push 16 (init_queue 16) 0x1000 0x42 4).st }
      0x1000 0x43 (by decide)).2.1 (by decide)).2.1

/-! ## Shape of the queue in reachable states -/

theorem wf_push (N : Nat) (s : SCQ) (addr data : Nat) (len : Int) (hwf : WF N s) :
    WF N (store_commit_queue_push N s addr data len).st := by
  obtain ⟨h0, hN, hl, hh, ht⟩ := hwf
  unfold store_commit_queue_push
  split_ifs
  · exact ⟨h0, hN, hl, hh, ht⟩
  all_goals first
    | exact ⟨h0, hN, by simpa using hl, hh, Nat.mod_lt _ h0⟩
    | exact ⟨h0, hN, by simpa using hl, hh, ht⟩

theorem wf_pop (N : Nat) (s : SCQ) (hwf : WF N s) : WF N (store_commit_queue_pop N s).2 := by
  obtain ⟨h0, hN, hl, hh, ht⟩ := hwf
  cases hv : (slot s s.head).valid
  · rw [pop_empty N s hv]; exact ⟨h0, hN, hl, hh, ht⟩
  · rw [pop_eq N s hv]; exact ⟨h0, hN, by simpa using hl, Nat.mod_lt _ h0, ht⟩

theorem run_calls_wf (N : Nat) (calls : List QueueCall) :
    ∀ s : SCQ, WF N s → WF N (run_calls N s calls).1 := by
  induction calls with
  | nil => intro s h; exact h
  | cons op rest ih =>
    intro s h
    cases op with
    | push addr data len =>
      have := wf_push N s addr data len h
      simp only [run_calls]
      split_ifs
      · exact this
      · exact ih _ this
    | pop =>
      have := wf_pop N s h
      simp only [run_calls]
      split
      · next s1 he => rw [he] at this; exact ih _ this
      · next p s1 he => rw [he] at this; exact ih _ this
    | check pc addr data =>
      have := wf_pop N s h
      simp only [run_calls, check_st]
      exact ih _ this

theorem run_calls_latched (N : Nat) (calls : List QueueCall) :
    ∀ s : SCQ, s.overflow = true → (run_calls N s calls).1.overflow = true := by
  induction calls with
  | nil => intro s h; exact h
  | cons op rest ih =>
    intro s h
    cases op with
    | push addr data len =>
      simp only [run_calls, push_latched N s addr data len h]
      exact ih s h
    | pop =>
      have := (pop_frame N s).2
      simp only [run_calls]
      split
      · next s1 he => rw [he] at this; exact ih _ (this.trans h)
      · next p s1 he => rw [he] at this; exact ih _ (this.trans h)
    | check pc addr data =>
      simp only [run_calls, check_st]
      exact ih _ ((pop_frame N s).2.trans h)

theorem run_calls_holds (N : Nat) (calls : List QueueCall) :
    ∀ (s : SCQ) (pend : List (Nat × Nat)), Holds N s pend → calls_widths_ok calls →
      (run_calls N s calls).1.overflow = false →
      ∃ pend1, Holds N (run_calls N s calls).1 pend1 ∧
        pend1.length + (run_calls N s calls).2.2 = pend.length + (run_calls N s calls).2.1 := by
  induction calls with
  | nil => intro s pend h _ _; exact ⟨pend, h, rfl⟩
  | cons op rest ih =>
    intro s pend h hw hfin
    cases op with
    | push addr data len =>
      obtain ⟨hlen, hw⟩ := hw
      have hab : (store_commit_queue_push N s addr data len).aborted = false := by
        rw [push_eq N s addr data len h.2.1 hlen]
      simp only [run_calls, hab] at hfin ⊢
      have hlt : pend.length < N := by
        by_contra hc
        have hfull : pend.length = N := le_antisymm h.2.2.1 (Nat.le_of_not_lt hc)
        have hv := (holds_full_iff N s pend h).mpr hfull
        have hl : (store_commit_queue_push N s addr data len).st.overflow = true := by
          rw [push_eq N s addr data len h.2.1 hlen]; exact hv
        have := run_calls_latched N rest _ hl
        simp [this] at hfin
      obtain ⟨pend1, hh, hc⟩ :=
        ih _ _ (holds_push N s pend addr data len h hlt hlen) hw (by simpa using hfin)
      refine ⟨pend1, by simpa using hh, ?_⟩
      simp only [List.length_append, List.length_singleton] at hc
      simp only [Bool.false_eq_true, if_false]
      omega
    | pop =>
      cases pend with
      | nil =>
        simp only [run_calls, holds_pop_nil N s h] at hfin ⊢
        exact ih s [] h hw hfin
      | cons x pend =>
        obtain ⟨a, d⟩ := x
        obtain ⟨s1, hp, _, _, hh⟩ := holds_pop_cons N s a d pend h
        simp only [run_calls, hp] at hfin ⊢
        obtain ⟨pend1, hh1, hc⟩ := ih s1 pend hh hw hfin
        refine ⟨pend1, hh1, ?_⟩
        simp only [List.length_cons]
        omega
    | check pc addr data =>
      cases pend with
      | nil =>
        have hp := holds_pop_nil N s h
        simp only [run_calls, check_st, hp] at hfin ⊢
        obtain ⟨pend1, hh1, hc⟩ := ih s [] h hw hfin
        exact ⟨pend1, hh1, by simpa using hc⟩
      | cons x pend =>
        obtain ⟨a, d⟩ := x
        obtain ⟨s1, hp, _, _, hh⟩ := holds_pop_cons N s a d pend h
        simp only [run_calls, check_st, hp] at hfin ⊢
        obtain ⟨pend1, hh1, hc⟩ := ih s1 pend hh hw hfin
        refine ⟨pend1, hh1, ?_⟩
        simp only [List.length_cons, Option.isSome_some, if_true]
        omega

theorem holds_valid_iff (N : Nat) (s : SCQ) (pend : List (Nat × Nat)) (h : Holds N s pend)
    (j : Nat) (hj : j < N) :
    (slot s j).valid = true ↔ ∃ i, i < pend.length ∧ j = (s.head + i) % N := by
  obtain ⟨_, _, _, _, hent, hinv⟩ := h
  constructor
  · intro hv
    by_contra hc
    have := hinv j hj (fun i hi e => hc ⟨i, hi, e⟩)
    rw [this] at hv
    exact Bool.noConfusion hv
  · rintro ⟨i, hi, rfl⟩
    have := hent i pend[i].1 pend[i].2 (by simp [List.getElem?_eq_getElem hi])
    rw [this]

theorem holds_valid_count (N : Nat) (s : SCQ) (pend : List (Nat × Nat)) (h : Holds N s pend) :
    (valid_slots N s).length = pend.length := by
  have h0 : 0 < N := h.1.1
  have hle : pend.length ≤ N := h.2.2.1
  have hnd : (valid_slots N s).Nodup := (List.nodup_range N).filter _
  have himg : (valid_slots N s).toFinset =
      (Finset.range pend.length).image (fun i => (s.head + i) % N) := by
    ext j
    simp only [valid_slots, List.mem_toFinset, List.mem_filter, List.mem_range,
      Finset.mem_image, Finset.mem_range]
    constructor
    · rintro ⟨hj, hv⟩
      obtain ⟨i, hi, e⟩ := (holds_valid_iff N s pend h j hj).mp hv
      exact ⟨i, hi, e.symm⟩
    · rintro ⟨i, hi, rfl⟩
      exact ⟨Nat.mod_lt _ h0, (holds_valid_iff N s pend h _ (Nat.mod_lt _ h0)).mpr ⟨i, hi, rfl⟩⟩
  rw [← List.toFinset_card_of_nodup hnd, himg, Finset.card_image_of_injOn, Finset.card_range]
  intro a ha b hb e
  simp only [Finset.coe_range, Set.mem_Iio] at ha hb
  exact mod_add_inj N s.head a b (by omega) (by omega) e

theorem holds_head_eq_tail (N : Nat) (s : SCQ) (pend : List (Nat × Nat)) (h : Holds N s pend) :
    s.head = s.tail ↔ (pend.length = 0 ∨ pend.length = N) := by
  obtain ⟨⟨h0, _, _, hh, _⟩, _, hle, htail, _, _⟩ := h
  constructor
  · intro e
    rcases Nat.lt_or_ge pend.length N with hlt | hge
    · left
      have e1 : (s.head + pend.length) % N = (s.head + 0) % N := by
        rw [← htail, ← e, Nat.add_zero, Nat.mod_eq_of_lt hh]
      exact mod_add_inj N s.head _ _ hlt h0 e1
    · right; omega
  · rintro (e | e)
    · rw [htail, e, Nat.add_zero, Nat.mod_eq_of_lt hh]
    · rw [htail, e, Nat.add_mod_right, Nat.mod_eq_of_lt hh]

/-- C16. Queue shape. In every state reached from the initial queue by calls of
`store_commit_queue_push` (widths in {1, 2, 4}), `store_commit_queue_pop` and
`check_store_commit`, `head` and `tail` are below `STORE_QUEUE_SIZE`. While the
latch is clear, with `k` the number of pushes minus the number of pops that
returned an entry: `k` is at most `STORE_QUEUE_SIZE`, `tail` is `head + k`
modulo `STORE_QUEUE_SIZE`, the valid slots are exactly `head, head + 1, ...,
head + k - 1` modulo `STORE_QUEUE_SIZE`, `head = tail` holds exactly when no
slot or every slot is valid (`k = 0` or `k = STORE_QUEUE_SIZE`), and the number
of valid slots is `k`. -/
theorem queue_shape (N : Nat) (calls : List QueueCall) (h0 : 0 < N) (hN : N ≤ 2 ^ 64)
    (hw : calls_widths_ok calls) :
    (run_calls N (init_queue N) calls).1.head < N ∧
    (run_calls N (init_queue N) calls).1.tail < N ∧
    ((run_calls N (init_queue N) calls).1.overflow = false →
      (run_calls N (init_queue N) calls).2.2 ≤ (run_calls N (init_queue N) calls).2.1 ∧
      (run_calls N (init_queue N) calls).2.1 - (run_calls N (init_queue N) calls).2.2 ≤ N ∧
      (run_calls N (init_queue N) calls).1.tail =
        ((run_calls N (init_queue N) calls).1.head +
          ((run_calls N (init_queue N) calls).2.1 -
            (run_calls N (init_queue N) calls).2.2)) % N ∧
      (∀ j, j < N →
        ((slot (run_calls N (init_queue N) calls).1 j).valid = true ↔
          ∃ i, i < (run_calls N (init_queue N) calls).2.1 -
                (run_calls N (init_queue N) calls).2.2 ∧
            j = ((run_calls N (init_queue N) calls).1.head + i) % N)) ∧
      ((run_calls N (init_queue N) calls).1.head = (run_calls N (init_queue N) calls).1.tail ↔
        ((run_calls N (init_queue N) calls).2.1 -
            (run_calls N (init_queue N) calls).2.2 = 0 ∨
          (run_calls N (init_queue N) calls).2.1 -
            (run_calls N (init_queue N) calls).2.2 = N)) ∧
      (valid_slots N (run_calls N (init_queue N) calls).1).length =
        (run_calls N (init_queue N) calls).2.1 -
          (run_calls N (init_queue N) calls).2.2) := by
  have hinit := holds_init N h0 hN
  have hwf := run_calls_wf N calls (init_queue N) hinit.1
  refine ⟨hwf.2.2.2.1, hwf.2.2.2.2, ?_⟩
  intro hclear
  obtain ⟨pend, hh, hc⟩ := run_calls_holds N calls (init_queue N) [] hinit hw hclear
  simp only [List.length_nil, Nat.zero_add] at hc
  have hk : (run_calls N (init_queue N) calls).2.1 - (run_calls N (init_queue N) calls).2.2
      = pend.length := by omega
  rw [hk]
  exact ⟨by omega, hh.2.2.1, hh.2.2.2.1, fun j hj => holds_valid_iff N _ pend hh j hj,
    holds_head_eq_tail N _ pend hh, holds_valid_count N _ pend hh⟩

/-- C16, instantiated: three pushes, a pop and a check on a queue of four slots
leave one valid slot, at index 2. -/
theorem queue_shape_witness :
    (valid_slots 4 (run_calls 4 (init_queue 4)
      [QueueCall.push 0x1000 1 4, QueueCall.push 0x1001 2 1, QueueCall.pop,
        QueueCall.push 0x1002 3 2, QueueCall.check 0 0x1001 0x200]).1).length = 3 - 2 :=
  ((queue_shape 4
      [QueueCall.push 0x1000 1 4, QueueCall.push 0x1001 2 1, QueueCall.pop,
        QueueCall.push 0x1002 3 2, QueueCall.check 0 0x1001 0x200]
      (by decide) (by decide)
      ⟨Or.inr (Or.inr rfl), Or.inl rfl, Or.inr (Or.inl rfl), trivial⟩).2.2 (by decide)).2.2.2.2.2

end Paddr
